import Mathlib

/-! Number extraction and descriptive statistics of `nbstats`.

A shallow embedding of `src/nbstats/nbstats_main.c`.

* The input stream is a `List Char`, one `Char` per byte.  A stream position is the list of
  bytes still to come; `fgetc` takes the head, and the empty list is the end of stream, where
  `fgetc` keeps returning `EOF`.
* A C loop of the shape `while (cond(ch)) { chars[sizeCh++] = ch; ch = fgetc(stream); }` copies
  `takeWhile cond` of the stream that starts at `ch` and leaves `dropWhile cond`, whose head is
  the character that ended the loop (already read by `fgetc`).
* `realloc` is taken to succeed always, so the two growing buffers are plain lists.
* A `long double` is a `binary64` value (the program is written for the Microsoft C runtime):
  finite values are exact rationals, the range limits of the format are modelled, rounding of
  the mantissa inside the range is not.
-/

namespace NBStats

/-! ## `<ctype.h>` in the "C" locale -/

/-- Decimal digit test of `<ctype.h>`: bytes `'0'`..`'9'` (48..57). -/
def isdigit (c : Char) : Bool := decide (48 ≤ c.toNat ∧ c.toNat ≤ 57)

/-- White-space test of `<ctype.h>`: space (32) and the controls `\t \n \v \f \r` (9..13). -/
def isspace (c : Char) : Bool := decide (c.toNat = 32 ∨ (9 ≤ c.toNat ∧ c.toNat ≤ 13))

/-- Letter test of `<ctype.h>`: `'A'`..`'Z'` (65..90) and `'a'`..`'z'` (97..122). -/
def isalpha (c : Char) : Bool :=
  decide ((65 ≤ c.toNat ∧ c.toNat ≤ 90) ∨ (97 ≤ c.toNat ∧ c.toNat ≤ 122))

/-- Hexadecimal digit test of `<ctype.h>`. -/
def isxdigit (c : Char) : Bool :=
  isdigit c || decide ((65 ≤ c.toNat ∧ c.toNat ≤ 70) ∨ (97 ≤ c.toNat ∧ c.toNat ≤ 102))

/-- Lower-case form of a letter, as `tolower`. -/
def tolower (c : Char) : Char :=
  if 65 ≤ c.toNat ∧ c.toNat ≤ 90 then Char.ofNat (c.toNat + 32) else c

/-! ## `long double` values and the library conversion `strtod` -/

/-- A `long double`: a finite value (kept exact), an infinity, or a NaN. -/
inductive LDouble
  | fin (q : ℚ)
  | pinf
  | ninf
  | nan
  deriving DecidableEq

namespace LDouble

/-- The test `isinf(x)`. -/
def isinf : LDouble → Bool
  | pinf => true
  | ninf => true
  | _ => false

/-- The comparison `x > 0`. -/
def gtZero : LDouble → Bool
  | fin q => decide (0 < q)
  | pinf => true
  | _ => false

/-- The comparison `x != 0`. -/
def neZero : LDouble → Bool
  | fin q => decide (q ≠ 0)
  | _ => true

/-- The comparison `0 <= x` (false for a NaN). -/
def nonneg : LDouble → Bool
  | fin q => decide (0 ≤ q)
  | pinf => true
  | _ => false

end LDouble

/-- Value of a decimal digit character. -/
def digitVal (c : Char) : Nat := c.toNat - 48

/-- Value of a hexadecimal digit character. -/
def hexVal (c : Char) : Nat :=
  if isdigit c then c.toNat - 48 else if 97 ≤ c.toNat then c.toNat - 87 else c.toNat - 55

/-- The natural number written by a string of decimal digits. -/
def readDec (ds : List Char) : Nat := ds.foldl (fun n c => 10 * n + digitVal c) 0

/-- The natural number written by a string of hexadecimal digits. -/
def readHex (ds : List Char) : Nat := ds.foldl (fun n c => 16 * n + hexVal c) 0

/-- The rational `m * b ^ e` for an integer exponent `e`. -/
def scale (b m : Nat) (e : Int) : ℚ :=
  if 0 ≤ e then ((m * b ^ e.toNat : Nat) : ℚ) else mkRat m (b ^ (-e).toNat)

/-- Exponent part of a floating literal: the marker character (`e`/`E` or `p`/`P`), an optional
sign and decimal digits.  Without marker or without digits the exponent is 0. -/
def readExponent (mark : Char → Bool) : List Char → Int
  | [] => 0
  | m :: s =>
    if mark m then
      let ds := if s.head? = some '-' ∨ s.head? = some '+' then s.tail else s
      let n : Int := readDec (ds.takeWhile isdigit)
      if s.head? = some '-' then -n else n
    else 0

/-- Decimal floating literal at the start of `s`: digits, optionally a point and digits (at least
one digit in all), optionally an exponent.  `none` when `s` does not start with one. -/
def decimalLiteral (s : List Char) : Option ℚ :=
  let ip := s.takeWhile isdigit
  let r1 := s.dropWhile isdigit
  let fp := if r1.head? = some '.' then r1.tail.takeWhile isdigit else []
  let r2 := if r1.head? = some '.' then r1.tail.dropWhile isdigit else r1
  if ip.isEmpty && fp.isEmpty then none
  else some (scale 10 (readDec (ip ++ fp))
    (readExponent (fun c => c = 'e' ∨ c = 'E') r2 - fp.length))

/-- Hexadecimal floating literal at the start of `s`: `0x`, hexadecimal digits with an optional
point (at least one digit), optionally a binary exponent. -/
def hexLiteral : List Char → Option ℚ
  | z :: x :: s =>
    if z = '0' ∧ (x = 'x' ∨ x = 'X') then
      let ip := s.takeWhile isxdigit
      let r1 := s.dropWhile isxdigit
      let fp := if r1.head? = some '.' then r1.tail.takeWhile isxdigit else []
      let r2 := if r1.head? = some '.' then r1.tail.dropWhile isxdigit else r1
      if ip.isEmpty && fp.isEmpty then none
      else some (scale 2 (readHex (ip ++ fp))
        (readExponent (fun c => c = 'p' ∨ c = 'P') r2 - 4 * fp.length))
    else none
  | _ => none

/-- Whether `s` starts with the word `w` (given in lower case), ignoring case. -/
def startsWord (w s : List Char) : Bool := decide ((s.take w.length).map tolower = w)

/-- Smallest magnitude that rounds to an infinity in `binary64`: `2^1024 - 2^970`. -/
def HUGE_BOUND : Nat := 2 ^ 1024 - 2 ^ 970

/-- Magnitudes of at most `2^(-1075)` round to zero in `binary64`; this is the denominator. -/
def TINY_DENOM : Nat := 2 ^ 1075

/-- The `long double` for the magnitude `q` with the given sign: overflow gives an infinity,
underflow gives zero, every other value is kept exact. -/
def toLDouble (neg : Bool) (q : ℚ) : LDouble :=
  if (HUGE_BOUND : ℚ) ≤ q then (if neg then LDouble.ninf else LDouble.pinf)
  else if q * (TINY_DENOM : ℚ) ≤ 1 then LDouble.fin 0
  else LDouble.fin (if neg then -q else q)

/-- The C library conversion `strtod`/`strtold` on a NUL-terminated string: leading white space
and an optional sign are skipped, then `inf`/`infinity`, `nan`, a hexadecimal or a decimal
floating literal is read as far as it goes; text that starts with none of them converts to 0. -/
def strtod (text : List Char) : LDouble :=
  let s0 := text.dropWhile isspace
  let neg : Bool := s0.head? = some '-'
  let s := if s0.head? = some '-' ∨ s0.head? = some '+' then s0.tail else s0
  if startsWord ['i', 'n', 'f'] s then (if neg then LDouble.ninf else LDouble.pinf)
  else if startsWord ['n', 'a', 'n'] s then LDouble.nan
  else match hexLiteral s with
    | some q => toLDouble neg q
    | none =>
      match decimalLiteral s with
      | some q => toLDouble neg q
      | none => LDouble.fin 0

/-- The call `atof(chars)`, which is `strtod(chars, NULL)`. -/
def atof (chars : List Char) : LDouble := strtod chars

/-- The value stored by `sscanf_s(chars, "%Lf", &x)` on a token without white space. -/
def sscanf_Lf (chars : List Char) : LDouble := strtod chars

/-! ## `getNumbers` -/

/-- A line printed for a rejected token. -/
inductive Event
  /-- Line 185 or 222: `Error: rejected #<index> <text>`. -/
  | rejected (index : Nat) (text : List Char)
  /-- Line 305: `Error: rejected # <index> <text> = INFINITY`. -/
  | rejectedInf (index : Nat) (text : List Char)
  deriving DecidableEq

/-- How a call of `getNumbers` ends. -/
inductive Outcome
  /-- Line 330: the array is returned; `numbers` is `numbers[0..size]`, its last entry being the
  terminator written at line 329. -/
  | dataset (numbers : List LDouble) (log : List Event)
  /-- Lines 179-182 and 258-261: `Error: failure reading element`, then `exit(EXIT_FAILURE)`. -/
  | failure (index length : Nat) (value : List Char)
  /-- Lines 323-324: `Data set is empty!`, then `exit(EXIT_FAILURE)`. -/
  | empty
  /-- The loop of lines 165-176 is never left. -/
  | noExit
  deriving DecidableEq

/-- The variables of `getNumbers` that live across iterations of the main loop; `size` is
`numbers.length`, and `sizeCh` is 0 whenever the main loop reads a character. -/
structure State where
  chInNum : Bool
  numbers : List LDouble
  log : List Event
  deriving DecidableEq

/-- Result of one iteration of the main loop. -/
inductive Step
  | done (o : Outcome)
  | next (st : State) (stream : List Char)
  deriving DecidableEq

/-- The loop of lines 165-176, `while (!isspace(ch))`, started with the stream from `ch` on.
It returns the characters copied when a white-space character ends it.  At the end of the stream
`ch` is `EOF`, `isspace(EOF)` is 0 and `fgetc` returns `EOF` again: the loop is not left. -/
def malformedRun : List Char → Option (List Char)
  | [] => none
  | c :: cs => if isspace c then some [] else (malformedRun cs).map (fun r => c :: r)

/-- The loop of lines 266-283, started with the stream from `ch` on: returns `chars`, `chInNum`
and the stream from the character that ended the loop on. -/
def digitLoop : List Char → Bool → List Char → List Char × Bool × List Char
  | [], chInNum, chars => (chars, chInNum, [])
  | c :: cs, chInNum, chars =>
    if isdigit c || c = '.' || isalpha c then
      if (isdigit c || c = '.') && chInNum = false then digitLoop cs chInNum (chars ++ [c])
      else digitLoop cs true chars
    else (chars, chInNum, c :: cs)

/-- The branch `ch == '-'` (lines 146-190); `s` is the stream after the `-`. -/
def negativeBranch (st : State) (s : List Char) : Step :=
  if (s.head?.map (fun c => isdigit c || c = '.')).getD false then
    let chars := '-' :: s.takeWhile (fun c => isdigit c || c = '.')
    Step.next { st with log := st.log ++ [Event.rejected st.numbers.length chars] }
      (s.dropWhile (fun c => isdigit c || c = '.')).tail
  else
    match malformedRun s with
    | none => Step.done Outcome.noExit
    | some run => Step.done (Outcome.failure st.numbers.length (run.length + 1) ('-' :: run))

/-- The branch `ch == '0'` (lines 191-226); `s` is the stream after the `0`. -/
def zeroBranch (st : State) (s : List Char) : Step :=
  let chars := '0' :: s.takeWhile (fun c => !isspace c)
  let rest := (s.dropWhile (fun c => !isspace c)).tail
  if (atof chars).gtZero then
    Step.next { st with numbers := st.numbers ++ [sscanf_Lf chars] } rest
  else Step.next { st with log := st.log ++ [Event.rejected st.numbers.length chars] } rest

/-- The branch `isdigit(ch) == 0 && !isspace(ch)` (lines 227-264). -/
def symbolBranch (st : State) (ch : Char) (s : List Char) : Step :=
  let chars := (ch :: s).takeWhile (fun c => !isspace c)
  let rest := ((ch :: s).dropWhile (fun c => !isspace c)).tail
  if (atof chars).gtZero then
    Step.next { st with numbers := st.numbers ++ [sscanf_Lf chars] } rest
  else Step.done (Outcome.failure st.numbers.length chars.length chars)

/-- The branch `isdigit(ch)` (lines 265-315).  A white-space character that ended the loop is
pushed back with `ungetc`; any other character that ended it stays consumed. -/
def digitBranch (st : State) (ch : Char) (s : List Char) : Step :=
  let r := digitLoop (ch :: s) st.chInNum []
  let chars := r.1
  let rest := if (r.2.2.head?.map isspace).getD false then r.2.2 else r.2.2.tail
  if 0 < chars.length then
    let num := sscanf_Lf chars
    if num.isinf then
      Step.next { chInNum := r.2.1, numbers := st.numbers ++ [LDouble.fin 0],
                  log := st.log ++ [Event.rejectedInf st.numbers.length chars] } rest
    else Step.next { st with chInNum := r.2.1, numbers := st.numbers ++ [num] } rest
  else Step.next { st with chInNum := r.2.1 } rest

/-- One iteration of the main loop (lines 145-320) with `ch` just read and `s` the stream after
it. -/
def mainStep (st : State) (ch : Char) (s : List Char) : Step :=
  if ch = '-' then negativeBranch st s
  else if ch = '0' then zeroBranch st s
  else if isdigit ch = false && !isspace ch then symbolBranch st ch s
  else if isdigit ch then digitBranch st ch s
  else Step.next { st with chInNum := false } s

/-- How the main loop ends: stopped by a fatal token, or at the end of the stream. -/
inductive Scan
  | stopped (o : Outcome)
  | eof (st : State)
  deriving DecidableEq

/-- The main loop `while ((ch = fgetc(stream)) != EOF)` of lines 145-320.  Every iteration
consumes at least one character, so `fuel` larger than the length of the stream is never used
up; `none` stands for used-up fuel. -/
def mainLoop : Nat → State → List Char → Option Scan
  | 0, _, _ => none
  | _ + 1, st, [] => some (Scan.eof st)
  | fuel + 1, st, ch :: s =>
    match mainStep st ch s with
    | Step.done o => some (Scan.stopped o)
    | Step.next st1 rest => mainLoop fuel st1 rest

/-- The code after the main loop (lines 322-330): the empty-dataset exit, or the terminator is
written to `numbers[size]` and the array is returned. -/
def finish (st : State) : Outcome :=
  if st.numbers.length = 0 then Outcome.empty
  else Outcome.dataset (st.numbers ++ [LDouble.fin 0]) st.log

/-- The outcome of `getNumbers` for a way the main loop ended. -/
def Scan.outcome : Scan → Outcome
  | Scan.stopped o => o
  | Scan.eof st => finish st

/-- The main loop run on the stream `s` from the state `st`. -/
def scanFrom (st : State) (s : List Char) : Option Scan := mainLoop (s.length + 1) st s

/-- The variables of `getNumbers` before the main loop. -/
def initState : State := { chInNum := false, numbers := [], log := [] }

/-- The function `getNumbers` on the bytes of its input stream. -/
def getNumbers (input : List Char) : Option Outcome :=
  (scanFrom initState input).map Scan.outcome

/-- The function `calculateArraySize`: the index of the first entry equal to 0.  The array handed
over by `getNumbers` always holds the terminator, so the end of the list is not reached. -/
def calculateArraySize : List LDouble → Nat
  | [] => 0
  | x :: xs => if x.neZero then calculateArraySize xs + 1 else 0

/-- The dataset seen by the statistics stage: the first `arrSize` entries of the array. -/
def datasetOf (numbers : List LDouble) : List LDouble :=
  numbers.take (calculateArraySize numbers)

/-! ## Statistics, in exact arithmetic

The statistics stage is embedded over `ℚ`.  The arguments are the array `a` and `size`; reads
`a[i]` are `a.getD i 0`.  `size` is a `size_t`: for `size ≥ 1` none of the index expressions
below wraps around. -/

/-- The comparison function `compare_num` handed to `qsort`. -/
def compare_num (a b : ℚ) : Int :=
  if a > b then 1 else if a < b then -1 else 0

/-- The function `sortNumbers`: `qsort` with `compare_num`.  The result of `qsort` is the
arrangement of the elements that is ordered by the comparison function; it is produced here by
insertion sort. -/
def sortNumbers (a : List ℚ) : List ℚ :=
  a.insertionSort (fun x y => compare_num x y ≤ 0)

/-- The function `calculateRange`: the pair `(rangeMin, rangeMax)`. -/
def calculateRange (a : List ℚ) (size : Nat) : ℚ × ℚ :=
  (a.getD 0 0, a.getD (size - 1) 0)

/-- The function `calArithmeticMean`. -/
def calArithmeticMean (a : List ℚ) (size : Nat) : ℚ :=
  (List.range size).foldl (fun sum i => sum + a.getD i 0) 0 / size

/-- The function `calStatisticalMedian`. -/
def calStatisticalMedian (a : List ℚ) (size : Nat) : ℚ :=
  if size % 2 = 0 then (a.getD (size / 2 - 1) 0 + a.getD (size / 2 + 1 - 1) 0) / 2
  else a.getD (size / 2 + 1 - 1) 0

/-- The function `calVariance`. -/
def calVariance (a : List ℚ) (size : Nat) (mean : ℚ) : ℚ :=
  (List.range size).foldl (fun variance i => variance + (a.getD i 0 - mean) ^ 2) 0 / size

/-- The function `calStandardDeviation`, with the library function `sqrt` as a parameter. -/
def calStandardDeviation {K : Type} (sqrt : K → K) (variance : K) : K := sqrt variance

/-! ## `calMode`

The array `a` holds the sorted dataset followed by the terminator, so `a[i + 1]` exists for
every `i < size`.  The counters are `long int`; they stay below `size`, taken to be below
`2^31`. -/

/-- The variables of `calMode` and the fields of `data` it sets.  `modeNums` is `some cells`,
the cells of the buffer written so far, as long as every write went to an index below the
capacity of the buffer; after a write past the capacity the contents of the buffer are not
determined, which is `none`. -/
structure ModeState where
  capacity : Nat
  a_index : Int
  modeF : Nat
  modeFH : Nat
  numModes : Nat
  modeNums : Option (List ℚ)
  deriving DecidableEq

/-- The assignment `buf[k] = v` on the cells written so far (`k` is at most their number). -/
def writeCell (buf : List ℚ) (k : Nat) (v : ℚ) : List ℚ :=
  if k < buf.length then buf.set k v else buf ++ [v]

/-- The body of the loops of `calMode` (lines 469-508) for `ai = a[i]` and `ai1 = a[i + 1]`. -/
def calModeStep (ai ai1 : ℚ) (m : ModeState) : ModeState :=
  if ai = ai1 then { m with modeF := m.modeF + 1 }
  else if m.modeF > m.modeFH then
    { m with modeNums := m.modeNums.map (fun b => writeCell b 0 ai), modeFH := m.modeF,
             a_index := 0, numModes := 1, modeF := 0 }
  else if m.modeF = m.modeFH ∧ m.modeF ≠ 0 then
    let capacity := if m.a_index = (m.capacity : Int) then m.capacity * 2 else m.capacity
    { m with capacity := capacity,
             modeNums := if m.a_index + 1 < (capacity : Int)
               then m.modeNums.map (fun b => writeCell b (m.a_index + 1).toNat ai) else none,
             a_index := m.a_index + 1, numModes := m.numModes + 1, modeF := 0 }
  else { m with modeF := 0 }

/-- The loops of `calMode` (lines 467-510) from index `i` on: the first argument is the array
from `a[i]` on, the second is `size - i`.  The inner `for` and the outer `while` together visit
every `i < size` once: a pass of the body either goes on in the `for` (`i++` of the `for`) or
leaves it with `i++; break;` and enters it again. -/
def calModeLoop : List ℚ → Nat → ModeState → ModeState
  | _, 0, m => m
  | [], _ + 1, m => m
  | ai :: rest, n + 1, m => calModeLoop rest n (calModeStep ai (rest.headD 0) m)

/-- The variables of `calMode` before the loops (lines 458-465). -/
def initMode : ModeState :=
  { capacity := 4, a_index := -1, modeF := 0, modeFH := 0, numModes := 0, modeNums := some [] }

/-- The function `calMode`. -/
def calMode (a : List ℚ) (size : Nat) : ModeState := calModeLoop a size initMode

/-- The test of `printOutput` (line 636) that prints `Mode = no mode`. -/
def noModeReported (m : ModeState) (arrSize : Nat) : Bool :=
  decide (m.numModes = 0 ∨ m.numModes * (m.modeFH + 1) = arrSize)

/-! ## `frequencyTable`, `calNB` and the conformance statement -/

/-- The conversion `(int)x` of a floating value: truncation toward zero. -/
def truncInt (x : ℚ) : Int := if 0 ≤ x then ⌊x⌋ else -⌊-x⌋

/-- The loop `while (digit >= 10) digit = digit / 10;` (lines 545-547); `none` stands for
used-up fuel. -/
def leadingLoop : Nat → ℚ → Option ℚ
  | 0, _ => none
  | fuel + 1, digit => if digit ≥ 10 then leadingLoop fuel (digit / 10) else some digit

/-- The mantissa of the scientific representation of a positive value below 1: the value
multiplied by 10 until it is at least 1. -/
def sciMantissa : Nat → ℚ → ℚ
  | 0, x => x
  | fuel + 1, x => if x < 1 then sciMantissa fuel (x * 10) else x

/-- Rounding to the nearest integer, ties to the even one. -/
def roundHalfEven (y : ℚ) : Int :=
  if y - ⌊y⌋ < 1 / 2 then ⌊y⌋
  else if 1 / 2 < y - ⌊y⌋ then ⌊y⌋ + 1
  else if ⌊y⌋ % 2 = 0 then ⌊y⌋ else ⌊y⌋ + 1

/-- The number read by `sscanf_s(str, "%d", &num)` from the text that
`snprintf(str, sizeof(str), "%e", v)` writes for `0 < v < 1`: the text is `d.dddddde-XX`, the
mantissa of `v` rounded to six digits after the point, and `num` is its digit `d` before the
point (1 when the rounding carries to `10.000000`, printed as `1.000000` with the next
exponent). -/
def sciLeading (v : ℚ) : Int :=
  let m := roundHalfEven (sciMantissa v.den v * 1000000)
  if m ≥ 10000000 then 1 else m / 1000000

/-- The index `num - 1` or `(int)digit - 1` of the bucket that the body of the first loop of
`frequencyTable` (lines 525-550) increments for the value `v = a[i]`.  For `v ≤ 0` the text
written by `%e` starts with `0` or `-`, so `num ≤ 0`. -/
def bucketIndex (v : ℚ) : Option Int :=
  if v < 1 then
    if 0 < v then some (sciLeading v - 1) else some (-1)
  else if v < 10 then some (truncInt v - 1)
  else if v / 10 = 0 then some (truncInt v - 1)
  else (leadingLoop (⌊v / 10⌋₊ + 1) (v / 10)).map (fun digit => truncInt digit - 1)

/-- The statement `data.fre_array[k] += 1` on the nine counters; `none` when `k` is not an index
of the array. -/
def incrementBucket (fre : List Int) (k : Int) : Option (List Int) :=
  if 0 ≤ k ∧ k < 9 then some (fre.set k.toNat (fre.getD k.toNat 0 + 1)) else none

/-- The first loop of `frequencyTable` (lines 524-551), which fills the raw frequency table
`data.fre_array`, from index `i` on: the arguments are the array from `a[i]` on, `size - i` and
the table. -/
def rawFrequency : List ℚ → Nat → List Int → Option (List Int)
  | _, 0, fre => some fre
  | [], _ + 1, fre => some fre
  | v :: rest, n + 1, fre =>
    match bucketIndex v with
    | none => none
    | some k =>
      match incrementBucket fre k with
      | none => none
      | some fre1 => rawFrequency rest n fre1

/-- The raw frequency table before `frequencyTable` runs: `struct output data = { 0 }`. -/
def initFrequency : List Int := List.replicate 9 0

/-- The raw frequency table that `frequencyTable` computes. -/
def frequencyTable (a : List ℚ) (size : Nat) : Option (List Int) :=
  rawFrequency a size initFrequency

/-- The actual frequencies that the third loop of `frequencyTable` (lines 562-572) stores in
`data.actual_array`: `(double)data.fre_array[i] / (double)size * 100` for the nine digits. -/
def actualFrequencies (fre : List Int) (size : Nat) : List ℚ :=
  (List.range 9).map (fun i => (fre.getD i 0 : ℚ) / (size : ℚ) * 100)

/-- The function `calNB` for the expected frequencies `P` and the actual frequencies `A`: the
pair `(NBVariance, NBDeviation)`.  `NBVariance0` is the value of `data.NBVariance` at the call,
which is 0 from `struct output data = { 0 }`; `sqrt` is the library function. -/
def calNB {K : Type} [Field K] (sqrt : K → K) (NBVariance0 : K) (P A : List K) : K × K :=
  let sum := (List.range 9).foldl
    (fun variance i => variance + (A.getD i 0 / P.getD i 0 - 1) ^ 2) NBVariance0
  (sum / 9, sqrt (sum / 9))

/-- The statements that `printOutput` prints about the Benford relationship. -/
inductive Conformance
  | veryStrong
  | strong
  | moderate
  | weak
  | notBenford
  deriving DecidableEq

/-- The chain of tests of `printOutput` (lines 726-735) on `data.NBDeviation`; `none` when no
test holds and nothing is printed.  The constants are 0.1, 0.2, 0.35 and 0.5. -/
def conformance {K : Type} [LinearOrderedField K] (d : K) : Option Conformance :=
  if 0 ≤ d ∧ d < 1 / 10 then some Conformance.veryStrong
  else if 1 / 10 ≤ d ∧ d < 2 / 10 then some Conformance.strong
  else if 2 / 10 ≤ d ∧ d < 35 / 100 then some Conformance.moderate
  else if 35 / 100 ≤ d ∧ d < 5 / 10 then some Conformance.weak
  else if 5 / 10 ≤ d then some Conformance.notBenford
  else none

/-! ## Notions used in the statements -/

/-- A step whose remaining stream is followed by `rest`. -/
def Step.extend (rest : List Char) : Step → Step
  | Step.done o => Step.done o
  | Step.next st s => Step.next st (s ++ rest)

/-- The stream `pre` is empty or its last character is a white space. -/
def EndsSpace (pre : List Char) : Prop := ∀ w, pre.getLast? = some w → isspace w = true

/-- The stream `post` is empty or its first character is a white space. -/
def StartsSpace (post : List Char) : Prop := ∀ w, post.head? = some w → isspace w = true

/-- A plain number token: a run of decimal digits that starts with `1`..`9`, optionally followed
by one decimal point and a run of decimal digits. -/
def plainToken (t : List Char) : Bool :=
  (t.head?.map (fun d => decide (49 ≤ d.toNat ∧ d.toNat ≤ 57))).getD false
    && ((t.dropWhile isdigit).isEmpty
      || (decide ((t.dropWhile isdigit).head? = some '.') && (t.dropWhile isdigit).tail.all isdigit))

/-- The number a plain token denotes: its integer digits plus its fraction digits scaled by the
number of fraction digits. -/
def plainValue (t : List Char) : ℚ :=
  (readDec (t.takeWhile isdigit) : ℚ)
    + (readDec (t.dropWhile isdigit).tail : ℚ) / 10 ^ (t.dropWhile isdigit).tail.length

/-- The text made of tokens, each followed by its run of separators. -/
def layout : List (List Char × List Char) → List Char
  | [] => []
  | it :: rest => it.1 ++ it.2 ++ layout rest

/-- Every separator run is made of white space, and only the last one may be empty. -/
def Separated : List (List Char × List Char) → Prop
  | [] => True
  | it :: rest => (∀ c ∈ it.2, isspace c = true) ∧ (it.2 ≠ [] ∨ rest = []) ∧ Separated rest

/-- The loop of lines 165-176 on the variables of the C code: `ch` (`none` for `EOF`), the stream
after `ch`, and `chars`.  One round tests `!isspace(ch)` and runs the body; `none` when the test
fails and the loop is left.  The body stores `(char)EOF`, the byte 255, when `ch` is `EOF`. -/
def malformedRound (v : Option Char × List Char × List Char) :
    Option (Option Char × List Char × List Char) :=
  if (v.1.map isspace).getD false then none
  else some (v.2.1.head?, v.2.1.tail, v.2.2 ++ [v.1.getD (Char.ofNat 255)])

/-- The variables of the loop of lines 165-176 after `n` rounds; `none` when the loop was left
before. -/
def malformedRounds : Nat → Option Char × List Char × List Char →
    Option (Option Char × List Char × List Char)
  | 0, v => some v
  | n + 1, v => (malformedRound v).bind (malformedRounds n)

/-- A digit token too large for a `long double`: `1` followed by 400 zeros. -/
def overflowToken : List Char := '1' :: List.replicate 400 '0'

/-- The first non-zero significant decimal digit of a positive value below 1: the integer part of
its mantissa `v * 10^k`, which lies in `[1, 10)`. -/
def firstSignificantDigit (v : ℚ) : Int := ⌊sciMantissa v.den v⌋

/-- The runs of equal adjacent values of `ds`, as pairs of the value and the length of the run,
when `f` values equal to the head of `ds` come before `ds`. -/
def runsFrom : Nat → List ℚ → List (ℚ × Nat)
  | _, [] => []
  | f, x :: rest =>
    if rest.head? = some x then runsFrom (f + 1) rest else (x, f + 1) :: runsFrom 0 rest

/-- What the end of a run of length `len` does to the pair `(modeFH, numModes)`. -/
def runStep (s : Nat × Nat) (len : Nat) : Nat × Nat :=
  if len - 1 > s.1 then (len - 1, 1)
  else if len - 1 = s.1 ∧ len - 1 ≠ 0 then (s.1, s.2 + 1)
  else s

/-- The write `modeNums[++a_index] = a[i]` of line 497, when the pass of the body of the loops
of `calMode` for `ai = a[i]` and `ai1 = a[i + 1]` makes it: the index written and the capacity
of the buffer at the write, after the growth check of lines 488-495. -/
def multiModeWrite (ai ai1 : ℚ) (m : ModeState) : Option (Int × Nat) :=
  if ai = ai1 then none
  else if m.modeF > m.modeFH then none
  else if m.modeF = m.modeFH ∧ m.modeF ≠ 0 then
    some (m.a_index + 1, if m.a_index = (m.capacity : Int) then m.capacity * 2 else m.capacity)
  else none

/-- The writes `modeNums[++a_index] = a[i]` that `calMode` makes from index `i` on, in order,
each as the index written and the capacity of the buffer at the write. -/
def modeWrites : List ℚ → Nat → ModeState → List (Int × Nat)
  | _, 0, _ => []
  | [], _ + 1, _ => []
  | ai :: rest, n + 1, m =>
    (multiModeWrite ai (rest.headD 0) m).toList
      ++ modeWrites rest n (calModeStep ai (rest.headD 0) m)

/-! ## The main loop: fuel, unfolding, and independence of what follows a white space -/

theorem digitLoop_suffix (l : List Char) (f : Bool) (c : List Char) :
    (digitLoop l f c).2.2 <:+ l := by
  induction l generalizing f c with
  | nil => simp [digitLoop]
  | cons x xs ih =>
    unfold digitLoop
    split_ifs
    · exact (ih _ _).trans (List.suffix_cons x xs)
    · exact (ih _ _).trans (List.suffix_cons x xs)
    · exact List.suffix_refl _

theorem tail_dropWhile_suffix (p : Char → Bool) (s : List Char) :
    (s.dropWhile p).tail <:+ s :=
  (List.tail_suffix _).trans (List.dropWhile_suffix p)

theorem negativeBranch_suffix (st : State) (s : List Char) (st1 : State) (rest : List Char)
    (h : negativeBranch st s = Step.next st1 rest) : rest <:+ s := by
  unfold negativeBranch at h
  split_ifs at h
  · injection h with _ hr
    subst hr
    exact tail_dropWhile_suffix _ _
  · split at h <;> cases h

theorem zeroBranch_suffix (st : State) (s : List Char) (st1 : State) (rest : List Char)
    (h : zeroBranch st s = Step.next st1 rest) : rest <:+ s := by
  unfold zeroBranch at h
  simp only at h
  split_ifs at h <;>
  · injection h with _ hr
    subst hr
    exact tail_dropWhile_suffix _ _

theorem symbolBranch_suffix (st : State) (ch : Char) (s : List Char) (st1 : State)
    (rest : List Char) (hch : isspace ch = false)
    (h : symbolBranch st ch s = Step.next st1 rest) : rest <:+ s := by
  unfold symbolBranch at h
  simp only at h
  split_ifs at h
  injection h with _ hr
  subst hr
  rw [List.dropWhile_cons_of_pos (by simp [hch])]
  exact tail_dropWhile_suffix _ _

theorem digitLoop_cons_suffix (ch : Char) (s : List Char) (f : Bool) (c : List Char)
    (hch : isdigit ch = true) : (digitLoop (ch :: s) f c).2.2 <:+ s := by
  unfold digitLoop
  simp only [hch, Bool.true_or, if_true]
  split_ifs <;> exact digitLoop_suffix _ _ _

theorem digitBranch_suffix (st : State) (ch : Char) (s : List Char) (st1 : State)
    (rest : List Char) (hch : isdigit ch = true)
    (h : digitBranch st ch s = Step.next st1 rest) : rest <:+ s := by
  have hs := digitLoop_cons_suffix ch s st.chInNum [] hch
  have hrest : (if ((digitLoop (ch :: s) st.chInNum []).2.2.head?.map isspace).getD false
      then (digitLoop (ch :: s) st.chInNum []).2.2
      else (digitLoop (ch :: s) st.chInNum []).2.2.tail) <:+ s := by
    split_ifs
    · exact hs
    · exact (List.tail_suffix _).trans hs
  unfold digitBranch at h
  simp only at h
  split_ifs at h <;>
  · injection h with _ hr
    subst hr
    first | exact hs | exact (List.tail_suffix _).trans hs

/-- The stream left by an iteration of the main loop is a suffix of the stream after `ch`. -/
theorem mainStep_suffix (st : State) (ch : Char) (s : List Char) (st1 : State)
    (rest : List Char) (h : mainStep st ch s = Step.next st1 rest) : rest <:+ s := by
  unfold mainStep at h
  split_ifs at h with h1 h2 h3 h4
  · exact negativeBranch_suffix _ _ _ _ h
  · exact zeroBranch_suffix _ _ _ _ h
  · simp only [Bool.and_eq_true, decide_eq_true_eq, Bool.not_eq_true'] at h3
    exact symbolBranch_suffix _ _ _ _ _ h3.2 h
  · exact digitBranch_suffix _ _ _ _ _ h4 h
  · injection h with _ hr
    subst hr
    exact List.suffix_refl _

theorem mainLoop_fuel (f1 f2 : Nat) (st : State) (s : List Char)
    (h1 : s.length < f1) (h2 : s.length < f2) : mainLoop f1 st s = mainLoop f2 st s := by
  induction f1 generalizing f2 st s with
  | zero => omega
  | succ n ih =>
    cases f2 with
    | zero => omega
    | succ m =>
      cases s with
      | nil => simp [mainLoop]
      | cons ch s =>
        simp only [mainLoop]
        cases hstep : mainStep st ch s with
        | done o => rfl
        | next st1 rest =>
          have hlen := (mainStep_suffix _ _ _ _ _ hstep).length_le
          simp only [List.length_cons] at h1 h2
          exact ih m st1 rest (by omega) (by omega)

theorem scanFrom_nil (st : State) : scanFrom st [] = some (Scan.eof st) := rfl

theorem scanFrom_cons (st : State) (ch : Char) (s : List Char) :
    scanFrom st (ch :: s) =
      match mainStep st ch s with
      | Step.done o => some (Scan.stopped o)
      | Step.next st1 rest => scanFrom st1 rest := by
  unfold scanFrom
  simp only [List.length_cons, mainLoop]
  cases hstep : mainStep st ch s with
  | done o => rfl
  | next st1 rest =>
    have hlen := (mainStep_suffix _ _ _ _ _ hstep).length_le
    exact mainLoop_fuel _ _ _ _ (by omega) (by omega)

/-- The main loop always ends within its fuel: `getNumbers` is total. -/
theorem scanFrom_isSome (st : State) (s : List Char) : (scanFrom st s).isSome = true := by
  generalize hn : s.length = n
  induction n using Nat.strong_induction_on generalizing st s with
  | _ n ih =>
    cases s with
    | nil => rfl
    | cons ch s =>
      rw [scanFrom_cons]
      cases hstep : mainStep st ch s with
      | done o => rfl
      | next st1 rest =>
        have hlen := (mainStep_suffix _ _ _ _ _ hstep).length_le
        simp only [List.length_cons] at hn
        exact ih rest.length (by omega) st1 rest rfl

/-! ### Character classes -/

theorem isspace_not_digit (w : Char) (h : isspace w = true) : isdigit w = false := by
  simp only [isspace, isdigit, decide_eq_true_eq, decide_eq_false_iff_not] at *
  omega

theorem isspace_not_alpha (w : Char) (h : isspace w = true) : isalpha w = false := by
  simp only [isspace, isalpha, decide_eq_true_eq, decide_eq_false_iff_not] at *
  omega

theorem isspace_ne_point (w : Char) (h : isspace w = true) : w ≠ '.' := by
  rintro rfl
  revert h
  decide

theorem isspace_ne_minus (w : Char) (h : isspace w = true) : w ≠ '-' := by
  rintro rfl
  revert h
  decide

theorem isspace_ne_zero (w : Char) (h : isspace w = true) : w ≠ '0' := by
  rintro rfl
  revert h
  decide

/-! ### Loops on a stream that holds a terminating character -/

theorem takeWhile_append_of_stop (p : Char → Bool) (s r : List Char)
    (h : ∃ x ∈ s, p x = false) : (s ++ r).takeWhile p = s.takeWhile p := by
  induction s with
  | nil => simp at h
  | cons a s ih =>
    by_cases ha : p a = true
    · have h1 : ∃ x ∈ s, p x = false := by
        obtain ⟨x, hx, hpx⟩ := h
        rcases List.mem_cons.1 hx with rfl | hx
        · simp [ha] at hpx
        · exact ⟨x, hx, hpx⟩
      simp [List.takeWhile_cons, ha, ih h1]
    · simp [List.takeWhile_cons, ha]

theorem dropWhile_append_of_stop (p : Char → Bool) (s r : List Char)
    (h : ∃ x ∈ s, p x = false) :
    (s ++ r).dropWhile p = s.dropWhile p ++ r ∧ s.dropWhile p ≠ [] := by
  induction s with
  | nil => simp at h
  | cons a s ih =>
    by_cases ha : p a = true
    · have h1 : ∃ x ∈ s, p x = false := by
        obtain ⟨x, hx, hpx⟩ := h
        rcases List.mem_cons.1 hx with rfl | hx
        · simp [ha] at hpx
        · exact ⟨x, hx, hpx⟩
      simpa [List.dropWhile_cons, ha] using ih h1
    · simp [List.dropWhile_cons, ha]

theorem malformedRun_append (s r : List Char) (h : ∃ x ∈ s, isspace x = true) :
    malformedRun (s ++ r) = malformedRun s := by
  induction s with
  | nil => simp at h
  | cons a s ih =>
    by_cases ha : isspace a = true
    · simp [malformedRun, ha]
    · have h1 : ∃ x ∈ s, isspace x = true := by
        obtain ⟨x, hx, hpx⟩ := h
        rcases List.mem_cons.1 hx with rfl | hx
        · exact absurd hpx ha
        · exact ⟨x, hx, hpx⟩
      simp [malformedRun, ha, ih h1]

theorem digitLoop_append (l rest : List Char) (f : Bool) (c : List Char)
    (h : ∃ x ∈ l, (isdigit x || decide (x = '.') || isalpha x) = false) :
    digitLoop (l ++ rest) f c
      = ((digitLoop l f c).1, (digitLoop l f c).2.1, (digitLoop l f c).2.2 ++ rest)
      ∧ (digitLoop l f c).2.2 ≠ [] := by
  induction l generalizing f c with
  | nil => simp at h
  | cons a l ih =>
    by_cases ha : (isdigit a || decide (a = '.') || isalpha a) = true
    · have h1 : ∃ x ∈ l, (isdigit x || decide (x = '.') || isalpha x) = false := by
        obtain ⟨x, hx, hpx⟩ := h
        rcases List.mem_cons.1 hx with rfl | hx
        · rw [ha] at hpx
          cases hpx
        · exact ⟨x, hx, hpx⟩
      simp only [List.cons_append, digitLoop, ha, if_true]
      split_ifs
      · exact ih _ _ h1
      · exact ih _ _ h1
    · simp only [List.cons_append, digitLoop, ha]
      simp

theorem negativeBranch_append (st : State) (s rest : List Char)
    (h : ∃ w ∈ s, isspace w = true) :
    negativeBranch st (s ++ rest) = (negativeBranch st s).extend rest := by
  have hstop : ∃ x ∈ s, (fun c => isdigit c || decide (c = '.')) x = false := by
    obtain ⟨w, hw, hsp⟩ := h
    exact ⟨w, hw, by simp [isspace_not_digit w hsp, isspace_ne_point w hsp]⟩
  have hne : s ≠ [] := by
    rintro rfl
    simp at h
  have hhead : (s ++ rest).head? = s.head? := by
    cases s with
    | nil => exact absurd rfl hne
    | cons a s => rfl
  unfold negativeBranch
  rw [hhead, takeWhile_append_of_stop _ _ _ hstop, (dropWhile_append_of_stop _ _ rest hstop).1,
    List.tail_append_of_ne_nil (dropWhile_append_of_stop _ _ rest hstop).2,
    malformedRun_append _ _ h]
  split_ifs
  · rfl
  · cases malformedRun s <;> rfl

theorem notspace_stop (s : List Char) (h : ∃ w ∈ s, isspace w = true) :
    ∃ x ∈ s, (fun c => !isspace c) x = false := by
  obtain ⟨w, hw, hsp⟩ := h
  exact ⟨w, hw, by simp [hsp]⟩

theorem zeroBranch_append (st : State) (s rest : List Char)
    (h : ∃ w ∈ s, isspace w = true) :
    zeroBranch st (s ++ rest) = (zeroBranch st s).extend rest := by
  have hstop := notspace_stop s h
  unfold zeroBranch
  simp only
  rw [takeWhile_append_of_stop _ _ _ hstop, (dropWhile_append_of_stop _ _ rest hstop).1,
    List.tail_append_of_ne_nil (dropWhile_append_of_stop _ _ rest hstop).2]
  split_ifs <;> rfl

theorem symbolBranch_append (st : State) (ch : Char) (s rest : List Char)
    (h : ∃ w ∈ ch :: s, isspace w = true) :
    symbolBranch st ch (s ++ rest) = (symbolBranch st ch s).extend rest := by
  have hstop := notspace_stop (ch :: s) h
  unfold symbolBranch
  simp only
  rw [← List.cons_append, takeWhile_append_of_stop _ _ _ hstop,
    (dropWhile_append_of_stop _ _ rest hstop).1,
    List.tail_append_of_ne_nil (dropWhile_append_of_stop _ _ rest hstop).2]
  split_ifs <;> rfl

theorem digitBranch_append (st : State) (ch : Char) (s rest : List Char)
    (h : ∃ w ∈ ch :: s, isspace w = true) :
    digitBranch st ch (s ++ rest) = (digitBranch st ch s).extend rest := by
  have hstop : ∃ x ∈ ch :: s, (isdigit x || decide (x = '.') || isalpha x) = false := by
    obtain ⟨w, hw, hsp⟩ := h
    exact ⟨w, hw, by
      simp [isspace_not_digit w hsp, isspace_ne_point w hsp, isspace_not_alpha w hsp]⟩
  obtain ⟨happ, hne⟩ := digitLoop_append (ch :: s) rest st.chInNum [] hstop
  have hhead : ((digitLoop (ch :: s) st.chInNum []).2.2 ++ rest).head?
      = (digitLoop (ch :: s) st.chInNum []).2.2.head? := by
    cases hd : (digitLoop (ch :: s) st.chInNum []).2.2 with
    | nil => exact absurd hd hne
    | cons a t => rfl
  unfold digitBranch
  simp only
  rw [← List.cons_append, happ]
  simp only [hhead, List.tail_append_of_ne_nil hne]
  split_ifs <;> rfl

/-- An iteration of the main loop on a stream that holds a white space does not depend on what
follows the stream. -/
theorem mainStep_append (st : State) (ch : Char) (s rest : List Char)
    (h : ∃ w ∈ ch :: s, isspace w = true) :
    mainStep st ch (s ++ rest) = (mainStep st ch s).extend rest := by
  unfold mainStep
  by_cases hch : isspace ch = true
  · simp [isspace_ne_minus ch hch, isspace_ne_zero ch hch, isspace_not_digit ch hch, hch,
      Step.extend]
  · have hs : ∃ w ∈ s, isspace w = true := by
      obtain ⟨w, hw, hsp⟩ := h
      rcases List.mem_cons.1 hw with rfl | hw
      · exact absurd hsp hch
      · exact ⟨w, hw, hsp⟩
    split_ifs
    · exact negativeBranch_append _ _ _ hs
    · exact zeroBranch_append _ _ _ hs
    · exact symbolBranch_append _ _ _ _ h
    · exact digitBranch_append _ _ _ _ h
    · rfl

theorem endsSpace_of_suffix (r s : List Char) (h : r <:+ s) (hs : EndsSpace s) :
    EndsSpace r := by
  intro w hw
  obtain ⟨t, rfl⟩ := h
  apply hs w
  rw [List.getLast?_append, hw]
  rfl

theorem endsSpace_mem (s : List Char) (hne : s ≠ []) (hs : EndsSpace s) :
    ∃ w ∈ s, isspace w = true := by
  have hl := List.getLast?_eq_getLast s hne
  exact ⟨s.getLast hne, List.getLast_mem hne, hs _ hl⟩

/-- What the main loop does on a stream `pre` that ends with a white space does not depend on
what follows: on `pre ++ rest` the loop stops where it stops on `pre`, or it reaches `rest` in
the state in which it ends on `pre`. -/
theorem scanFrom_append (st : State) (pre rest : List Char) (h : EndsSpace pre) :
    scanFrom st (pre ++ rest) =
      match scanFrom st pre with
      | some (Scan.eof st1) => scanFrom st1 rest
      | r => r := by
  generalize hn : pre.length = n
  induction n using Nat.strong_induction_on generalizing st pre with
  | _ n ih =>
    cases pre with
    | nil => simp [scanFrom_nil]
    | cons ch s =>
      rw [List.cons_append, scanFrom_cons, scanFrom_cons,
        mainStep_append _ _ _ _ (endsSpace_mem _ (List.cons_ne_nil _ _) h)]
      cases hstep : mainStep st ch s with
      | done o => rfl
      | next st1 r =>
        have hsuf := mainStep_suffix _ _ _ _ _ hstep
        have hlen := hsuf.length_le
        simp only [List.length_cons] at hn
        exact ih r.length (by omega) st1 r
          (endsSpace_of_suffix _ _ (hsuf.trans (List.suffix_cons ch s)) h) rfl

/-! ### The library conversion on plain tokens, and the digit branch -/

theorem readDec_foldl (ds : List Char) (n : Nat) :
    ds.foldl (fun n c => 10 * n + digitVal c) n = n * 10 ^ ds.length + readDec ds := by
  induction ds generalizing n with
  | nil => simp [readDec]
  | cons a ds ih =>
    simp only [List.foldl_cons, List.length_cons, readDec]
    rw [ih, ih (10 * 0 + digitVal a)]
    ring

theorem readDec_append (a b : List Char) :
    readDec (a ++ b) = readDec a * 10 ^ b.length + readDec b := by
  unfold readDec
  rw [List.foldl_append, readDec_foldl]
  rfl

theorem readDec_cons (a : Char) (ds : List Char) :
    readDec (a :: ds) = digitVal a * 10 ^ ds.length + readDec ds := by
  have := readDec_append [a] ds
  simpa [readDec] using this

theorem scale_neg_length (m k : Nat) :
    scale 10 m (0 - (k : Int)) = (m : ℚ) / 10 ^ k := by
  unfold scale
  split_ifs with h
  · have hk : k = 0 := by omega
    subst hk
    simp
  · simp [Rat.mkRat_eq_div]

theorem toLDouble_of_mid (q : ℚ) (h1 : 1 ≤ q) (h2 : q < (HUGE_BOUND : ℚ)) :
    toLDouble false q = LDouble.fin q := by
  unfold toLDouble
  have hT : (1 : ℚ) < (TINY_DENOM : ℚ) := by
    have hpow : ∀ n : ℕ, n ≠ 0 → 1 < 2 ^ n := fun n hn => Nat.one_lt_two_pow hn
    have : (1 : ℕ) < TINY_DENOM := hpow 1075 (by decide)
    exact_mod_cast this
  have h3 : ¬ q * (TINY_DENOM : ℚ) ≤ 1 := by
    have : 1 < q * (TINY_DENOM : ℚ) := by nlinarith
    linarith
  simp [not_le.2 h2, h3]


/-- Shape of a plain token. -/
theorem plainToken_shape (t : List Char) (h : plainToken t = true) :
    ∃ d ip fp, t.takeWhile isdigit = d :: ip ∧ 49 ≤ d.toNat ∧ d.toNat ≤ 57 ∧
      (∀ c ∈ fp, isdigit c = true) ∧
      (t.dropWhile isdigit = [] ∨ t.dropWhile isdigit = '.' :: fp) ∧
      (t.dropWhile isdigit).tail = fp := by
  unfold plainToken at h
  simp only [Bool.and_eq_true, Bool.or_eq_true, decide_eq_true_eq, List.isEmpty_iff,
    List.all_eq_true] at h
  obtain ⟨hhead, hfr⟩ := h
  cases t with
  | nil => simp at hhead
  | cons d r =>
    simp only [List.head?_cons, Option.map_some', Option.getD_some, decide_eq_true_eq] at hhead
    have hd : isdigit d = true := by
      simp only [isdigit, decide_eq_true_eq]
      omega
    refine ⟨d, r.takeWhile isdigit, ((d :: r).dropWhile isdigit).tail, ?_, hhead.1, hhead.2,
      ?_, ?_, rfl⟩
    · simp [List.takeWhile_cons, hd]
    · rcases hfr with h0 | ⟨_, h1⟩
      · simp [h0]
      · exact h1
    · rcases hfr with h0 | ⟨h1, _⟩
      · exact Or.inl h0
      · right
        cases hfr2 : (d :: r).dropWhile isdigit with
        | nil => simp [hfr2] at h1
        | cons x xs =>
          rw [hfr2] at h1
          simp only [List.head?_cons, Option.some.injEq] at h1
          simp [h1]


theorem isdigit_props (c : Char) (h : isdigit c = true) :
    isspace c = false ∧ c ≠ '-' ∧ c ≠ '+' ∧ tolower c = c ∧ c ≠ 'i' ∧ c ≠ 'n' ∧ c ≠ '.'
      ∧ isalpha c = false := by
  have hc : 48 ≤ c.toNat ∧ c.toNat ≤ 57 := by simpa [isdigit] using h
  refine ⟨?_, ?_, ?_, ?_, ?_, ?_, ?_, ?_⟩
  · simp only [isspace, decide_eq_false_iff_not]
    omega
  · rintro rfl
    revert h
    decide
  · rintro rfl
    revert h
    decide
  · unfold tolower
    rw [if_neg (by omega)]
  · rintro rfl
    revert h
    decide
  · rintro rfl
    revert h
    decide
  · rintro rfl
    revert h
    decide
  · simp only [isalpha, decide_eq_false_iff_not]
    omega

/-- The conversion `strtod` on a text that starts with a decimal digit and is no hexadecimal
literal: the value of its decimal literal. -/
theorem strtod_digit_head (c : Char) (r : List Char) (q : ℚ) (hc : isdigit c = true)
    (hhex : hexLiteral (c :: r) = none) (hdec : decimalLiteral (c :: r) = some q) :
    strtod (c :: r) = toLDouble false q := by
  obtain ⟨h1, h2, h3, h4, h5, h6, -, -⟩ := isdigit_props c hc
  simp [strtod, startsWord, List.dropWhile_cons, h1, h2, h3, h4, h5, h6, hhex, hdec]

theorem hexLiteral_nonzero_head (c : Char) (r : List Char) (hc : c ≠ '0') :
    hexLiteral (c :: r) = none := by
  cases r with
  | nil => rfl
  | cons x s => simp [hexLiteral, hc]


theorem decimalLiteral_plain (t : List Char) (h : plainToken t = true) :
    decimalLiteral t = some (plainValue t) := by
  obtain ⟨d, ip, fp, htake, -, -, hfp, hdrop, htail⟩ := plainToken_shape t h
  have hsplit := List.takeWhile_append_dropWhile isdigit t
  unfold decimalLiteral plainValue
  simp only [htake, htail]
  rcases hdrop with h0 | h1
  · have hfp0 : fp = [] := by rw [← htail, h0]; rfl
    subst hfp0
    simp [h0, readExponent, scale, readDec]
  · have htw : fp.takeWhile isdigit = fp := List.takeWhile_eq_self_iff.2 hfp
    have hdw : fp.dropWhile isdigit = [] := List.dropWhile_eq_nil_iff.2 hfp
    simp only [h1, List.head?_cons, if_true, List.tail_cons, htw, hdw, readExponent,
      List.isEmpty_cons, Bool.false_and, Bool.false_eq_true, if_false, Option.some.injEq]
    rw [scale_neg_length, readDec_append]
    have h10 : (10 : ℚ) ^ fp.length ≠ 0 := by positivity
    push_cast
    field_simp

theorem plainValue_ge_one (t : List Char) (h : plainToken t = true) : 1 ≤ plainValue t := by
  obtain ⟨d, ip, fp, htake, hd1, -, -, -, htail⟩ := plainToken_shape t h
  unfold plainValue
  rw [htake, htail, readDec_cons]
  have h1 : 1 ≤ digitVal d := by
    unfold digitVal
    omega
  have h2 : 1 ≤ digitVal d * 10 ^ ip.length + readDec ip := by
    have : 1 ≤ 10 ^ ip.length := Nat.one_le_pow _ _ (by norm_num)
    nlinarith
  have h3 : (1 : ℚ) ≤ ((digitVal d * 10 ^ ip.length + readDec ip : ℕ) : ℚ) := by
    exact_mod_cast h2
  have h4 : (0 : ℚ) ≤ (readDec fp : ℚ) / 10 ^ fp.length := by positivity
  linarith

/-- The library conversion reads a plain token as the number it denotes. -/
theorem strtod_plain (t : List Char) (h : plainToken t = true)
    (hfin : plainValue t < (HUGE_BOUND : ℚ)) : strtod t = LDouble.fin (plainValue t) := by
  obtain ⟨d, ip, fp, htake, hd1, hd2, -, -, -⟩ := plainToken_shape t h
  cases t with
  | nil => simp at htake
  | cons x r =>
    have hx : isdigit x = true := by
      by_contra hx
      simp [List.takeWhile_cons, hx] at htake
    have hxd : x = d := by
      simp only [List.takeWhile_cons, hx, if_true, List.cons.injEq] at htake
      exact htake.1
    have hx0 : x ≠ '0' := by
      rintro rfl
      subst hxd
      revert hd1
      decide
    rw [strtod_digit_head x r _ hx (hexLiteral_nonzero_head x r hx0) (decimalLiteral_plain _ h),
      toLDouble_of_mid _ (plainValue_ge_one _ h) hfin]


theorem digitLoop_stop (rest : List Char) (f : Bool) (chars : List Char)
    (h : StartsSpace rest) : digitLoop rest f chars = (chars, f, rest) := by
  cases rest with
  | nil => rfl
  | cons w r =>
    have hw := h w rfl
    simp [digitLoop, isspace_not_digit w hw, isspace_ne_point w hw, isspace_not_alpha w hw]

theorem digitLoop_copy (p rest chars : List Char)
    (hp : ∀ c ∈ p, (isdigit c || decide (c = '.')) = true) :
    digitLoop (p ++ rest) false chars = digitLoop rest false (chars ++ p) := by
  induction p generalizing chars with
  | nil => simp
  | cons a p ih =>
    have ha := hp a (List.mem_cons_self _ _)
    rw [List.cons_append, digitLoop]
    simp only [ha, Bool.true_or, if_true, Bool.and_self, Bool.and_true, decide_True]
    rw [ih _ (fun c hc => hp c (List.mem_cons_of_mem _ hc))]
    simp

theorem digitLoop_flagged (q rest chars : List Char)
    (hq : ∀ c ∈ q, (isdigit c || decide (c = '.') || isalpha c) = true) :
    digitLoop (q ++ rest) true chars = digitLoop rest true chars := by
  induction q generalizing chars with
  | nil => simp
  | cons a q ih =>
    have ha := hq a (List.mem_cons_self _ _)
    rw [List.cons_append, digitLoop]
    simp only [ha, if_true]
    simp [ih _ (fun c hc => hq c (List.mem_cons_of_mem _ hc))]

/-- The loop of the digit branch on a token made of a run `p` of digits and points followed by
a run `q` that starts with a letter: `p` is copied, `q` is skipped and sets the flag. -/
theorem digitLoop_token (p q rest chars : List Char)
    (hp : ∀ c ∈ p, (isdigit c || decide (c = '.')) = true)
    (hq : ∀ c ∈ q, (isdigit c || decide (c = '.') || isalpha c) = true)
    (hq0 : ∀ l, q.head? = some l → (isdigit l || decide (l = '.')) = false)
    (hrest : StartsSpace rest) :
    digitLoop (p ++ q ++ rest) false chars = (chars ++ p, !q.isEmpty, rest) := by
  rw [List.append_assoc, digitLoop_copy _ _ _ hp]
  cases q with
  | nil => simpa using digitLoop_stop rest false _ hrest
  | cons l q =>
    have hl := hq l (List.mem_cons_self _ _)
    have hl0 := hq0 l rfl
    rw [List.cons_append, digitLoop, if_pos hl, if_neg (by simp [hl0]),
      digitLoop_flagged _ _ _ (fun c hc => hq c (List.mem_cons_of_mem _ hc)),
      digitLoop_stop rest true _ hrest]
    simp

theorem startsSpace_rest (rest : List Char) (h : StartsSpace rest) :
    (if (rest.head?.map isspace).getD false then rest else rest.tail) = rest := by
  cases rest with
  | nil => simp
  | cons w r => simp [h w rfl]

/-- The digit branch on a delimited token: the text `d :: p` before the first letter is
converted and recorded (or rejected as INFINITY with a 0 recorded); the main loop resumes at
the delimiter. -/
theorem mainStep_digitToken (st : State) (d : Char) (p q rest : List Char)
    (hd : isdigit d = true) (hd0 : d ≠ '0')
    (hp : ∀ c ∈ p, (isdigit c || decide (c = '.')) = true)
    (hq : ∀ c ∈ q, (isdigit c || decide (c = '.') || isalpha c) = true)
    (hq0 : ∀ l, q.head? = some l → (isdigit l || decide (l = '.')) = false)
    (hflag : st.chInNum = false) (hrest : StartsSpace rest) :
    mainStep st d (p ++ q ++ rest) =
      if (sscanf_Lf (d :: p)).isinf then
        Step.next { chInNum := !q.isEmpty, numbers := st.numbers ++ [LDouble.fin 0],
                    log := st.log ++ [Event.rejectedInf st.numbers.length (d :: p)] } rest
      else
        Step.next { chInNum := !q.isEmpty, numbers := st.numbers ++ [sscanf_Lf (d :: p)],
                    log := st.log } rest := by
  obtain ⟨h1, h2, -, -, -, -, -, -⟩ := isdigit_props d hd
  have hloop : digitLoop (d :: (p ++ q ++ rest)) st.chInNum [] = (d :: p, !q.isEmpty, rest) := by
    have := digitLoop_token (d :: p) q rest []
      (by
        intro c hc
        rcases List.mem_cons.1 hc with rfl | hc
        · simp [hd]
        · exact hp c hc) hq hq0 hrest
    rw [hflag]
    simpa using this
  unfold mainStep
  rw [if_neg h2, if_neg hd0, if_neg (by simp [hd]), if_pos hd]
  unfold digitBranch
  simp only [hloop, startsSpace_rest rest hrest, List.length_cons, Nat.zero_lt_succ, if_true]

/-! ### Plain number tokens (C1) -/

theorem scanFrom_space (st : State) (w : Char) (s : List Char) (hw : isspace w = true) :
    scanFrom st (w :: s) = scanFrom { st with chInNum := false } s := by
  rw [scanFrom_cons]
  simp [mainStep, isspace_ne_minus w hw, isspace_ne_zero w hw, isspace_not_digit w hw, hw]

theorem scanFrom_spaces (st : State) (ws s : List Char) (hws : ∀ c ∈ ws, isspace c = true)
    (hflag : st.chInNum = false) : scanFrom st (ws ++ s) = scanFrom st s := by
  induction ws with
  | nil => rfl
  | cons w ws ih =>
    rw [List.cons_append, scanFrom_space _ _ _ (hws w (List.mem_cons_self _ _))]
    have hst : ({ st with chInNum := false } : State) = st := by
      cases st
      simp only [State.mk.injEq, and_true] at hflag ⊢
      exact hflag.symm
    rw [hst]
    exact ih (fun c hc => hws c (List.mem_cons_of_mem _ hc))

theorem plainToken_chars (t : List Char) (h : plainToken t = true) :
    ∃ d p, t = d :: p ∧ isdigit d = true ∧ d ≠ '0' ∧
      ∀ c ∈ p, (isdigit c || decide (c = '.')) = true := by
  obtain ⟨d, ip, fp, htake, hd1, hd2, hfp, hdrop, htail⟩ := plainToken_shape t h
  have hsplit := List.takeWhile_append_dropWhile isdigit t
  have hip : ∀ c ∈ d :: ip, isdigit c = true := by
    intro c hc
    rw [← htake] at hc
    exact (List.mem_takeWhile_imp hc)
  have hd : isdigit d = true := hip d (List.mem_cons_self _ _)
  have hd0 : d ≠ '0' := by
    rintro rfl
    revert hd1
    decide
  rcases hdrop with h0 | h1
  · refine ⟨d, ip, ?_, hd, hd0, ?_⟩
    · rw [← hsplit, htake, h0, List.append_nil]
    · intro c hc
      simp [hip c (List.mem_cons_of_mem _ hc)]
  · refine ⟨d, ip ++ '.' :: fp, ?_, hd, hd0, ?_⟩
    · rw [← hsplit, htake, h1, List.cons_append]
    · intro c hc
      rcases List.mem_append.1 hc with hc | hc
      · simp [hip c (List.mem_cons_of_mem _ hc)]
      · rcases List.mem_cons.1 hc with rfl | hc
        · simp
        · simp [hfp c hc]

/-- The main loop on a delimited plain token, with the letter flag clear: the value of the
token is appended and the loop resumes at the delimiter. -/
theorem scanFrom_plain (st : State) (t rest : List Char) (ht : plainToken t = true)
    (hfin : plainValue t < (HUGE_BOUND : ℚ)) (hflag : st.chInNum = false)
    (hrest : StartsSpace rest) :
    scanFrom st (t ++ rest)
      = scanFrom { st with numbers := st.numbers ++ [LDouble.fin (plainValue t)] } rest := by
  obtain ⟨d, p, rfl, hd, hd0, hp⟩ := plainToken_chars t ht
  have hstep := mainStep_digitToken st d p [] rest hd hd0 hp (by simp) (by simp) hflag hrest
  have hval : sscanf_Lf (d :: p) = LDouble.fin (plainValue (d :: p)) := strtod_plain _ ht hfin
  rw [hval] at hstep
  simp only [List.append_nil, LDouble.isinf, Bool.false_eq_true, if_false, List.isEmpty_nil,
    Bool.not_true] at hstep
  rw [List.cons_append, scanFrom_cons, hstep]
  cases st
  simp only at hflag
  subst hflag
  rfl

theorem startsSpace_separator (ws tail : List Char) (hws : ∀ c ∈ ws, isspace c = true)
    (h : ws ≠ [] ∨ tail = []) : StartsSpace (ws ++ tail) := by
  intro w hw
  cases ws with
  | nil =>
    rcases h with h | h
    · exact absurd rfl h
    · subst h
      simp at hw
  | cons a ws =>
    simp only [List.cons_append, List.head?_cons, Option.some.injEq] at hw
    subst hw
    exact hws _ (List.mem_cons_self _ _)

theorem layout_eq_nil (items : List (List Char × List Char)) (h : items = []) :
    layout items = [] := by
  subst h
  rfl

/-- The main loop on a text of separated plain tokens records the value of every token, in
order, and reaches the end of the stream. -/
theorem scanFrom_layout (items : List (List Char × List Char)) (st : State)
    (hflag : st.chInNum = false) (hsep : Separated items)
    (htok : ∀ it ∈ items, plainToken it.1 = true ∧ plainValue it.1 < (HUGE_BOUND : ℚ)) :
    scanFrom st (layout items)
      = some (Scan.eof { st with numbers :=
          st.numbers ++ items.map (fun it => LDouble.fin (plainValue it.1)) }) := by
  induction items generalizing st with
  | nil =>
    cases st
    simp [layout, scanFrom_nil]
  | cons it items ih =>
    obtain ⟨hws, hlast, hsep1⟩ := hsep
    obtain ⟨ht, hfin⟩ := htok it (List.mem_cons_self _ _)
    have hstart : StartsSpace (it.2 ++ layout items) :=
      startsSpace_separator _ _ hws (hlast.imp id (layout_eq_nil items))
    simp only [layout, List.append_assoc]
    rw [scanFrom_plain st it.1 _ ht hfin hflag hstart,
      scanFrom_spaces { st with numbers := st.numbers ++ [LDouble.fin (plainValue it.1)] }
        _ _ hws hflag,
      ih { st with numbers := st.numbers ++ [LDouble.fin (plainValue it.1)] } hflag hsep1
        (fun x hx => htok x (List.mem_cons_of_mem _ hx))]
    simp

theorem calculateArraySize_terminated (xs ys : List LDouble)
    (h : ∀ x ∈ xs, x.neZero = true) :
    calculateArraySize (xs ++ LDouble.fin 0 :: ys) = xs.length := by
  induction xs with
  | nil => simp [calculateArraySize, LDouble.neZero]
  | cons x xs ih =>
    have hxs := ih (fun y hy => h y (List.mem_cons_of_mem _ hy))
    simp only [List.cons_append, calculateArraySize, h x (List.mem_cons_self _ _), if_true,
      List.length_cons]
    exact congrArg (· + 1) hxs

/-- C1. On an input made only of white-space separated plain number tokens (first digit `1`-`9`,
decimal digits, at most one decimal point, value below the overflow bound), `getNumbers`
returns the array whose entries are the values of the tokens in input order, followed by the
terminator; the number of values is the number of tokens, and `calculateArraySize` finds
exactly that size, so the statistics stage sees exactly these values. -/
theorem getNumbers_plain_tokens (lead : List Char) (items : List (List Char × List Char))
    (hlead : ∀ c ∈ lead, isspace c = true) (hsep : Separated items)
    (htok : ∀ it ∈ items, plainToken it.1 = true ∧ plainValue it.1 < (HUGE_BOUND : ℚ))
    (hne : items ≠ []) :
    getNumbers (lead ++ layout items)
        = some (Outcome.dataset
            (items.map (fun it => LDouble.fin (plainValue it.1)) ++ [LDouble.fin 0]) [])
      ∧ (items.map (fun it => LDouble.fin (plainValue it.1))).length = items.length
      ∧ calculateArraySize
          (items.map (fun it => LDouble.fin (plainValue it.1)) ++ [LDouble.fin 0]) = items.length
      ∧ datasetOf (items.map (fun it => LDouble.fin (plainValue it.1)) ++ [LDouble.fin 0])
          = items.map (fun it => LDouble.fin (plainValue it.1)) := by
  have hsize : calculateArraySize
      (items.map (fun it => LDouble.fin (plainValue it.1)) ++ [LDouble.fin 0]) = items.length := by
    rw [calculateArraySize_terminated, List.length_map]
    intro x hx
    obtain ⟨it, hit, rfl⟩ := List.mem_map.1 hx
    have h1 := plainValue_ge_one it.1 (htok it hit).1
    simp only [LDouble.neZero, decide_eq_true_eq]
    intro h0
    rw [h0] at h1
    norm_num at h1
  refine ⟨?_, List.length_map _ _, hsize, ?_⟩
  · unfold getNumbers
    rw [scanFrom_spaces _ _ _ hlead rfl, scanFrom_layout items initState rfl hsep htok]
    cases items with
    | nil => exact absurd rfl hne
    | cons it items => simp [Scan.outcome, finish, initState]
  · unfold datasetOf
    rw [hsize, ← List.length_map items (fun it => LDouble.fin (plainValue it.1)),
      List.take_left]

/-- C1, witness: the input `5 10 15` gives the values 5, 10, 15. -/
theorem getNumbers_plain_tokens_witness :
    getNumbers "5 10 15".toList
      = some (Outcome.dataset [LDouble.fin 5, LDouble.fin 10, LDouble.fin 15, LDouble.fin 0] [])
    := by
  have h := (getNumbers_plain_tokens []
    [(['5'], [' ']), (['1', '0'], [' ']), (['1', '5'], [])]
    (by simp)
    ⟨by decide, Or.inl (by decide), by decide, Or.inl (by decide), by decide, Or.inr rfl,
      trivial⟩
    (by decide!) (by decide)).1
  have e1 : ([] : List Char) ++ layout [(['5'], [' ']), (['1', '0'], [' ']), (['1', '5'], [])]
      = "5 10 15".toList := by decide
  have e2 : ([(['5'], [' ']), (['1', '0'], [' ']), (['1', '5'], [])] :
      List (List Char × List Char)).map (fun it => LDouble.fin (plainValue it.1))
        ++ [LDouble.fin 0]
      = [LDouble.fin 5, LDouble.fin 10, LDouble.fin 15, LDouble.fin 0] := by decide!
  rw [e1, e2] at h
  exact h

/-! ### Negative tokens (C2) and zero-leading tokens (C3) -/

/-- C2 (evaluation at the failing input). The token `-5` stands between two white spaces.
With it the array holds only the value 1: the digit token `7` after it is lost, because the
branch for `-` consumes the white space after `-5` that would have cleared `chInNum`, set by the
letter of `1a`.  Without the token `-5` the array holds 1 and 7.  On `-5 10` the token is
rejected and the array holds 10. -/
theorem negative_token_removal_stale_flag :
    getNumbers "1a$0 -5 7".toList
        = some (Outcome.dataset [LDouble.fin 1, LDouble.fin 0]
            [Event.rejected 1 ['0'], Event.rejected 1 ['-', '5']])
      ∧ getNumbers "1a$0  7".toList
        = some (Outcome.dataset [LDouble.fin 1, LDouble.fin 7, LDouble.fin 0]
            [Event.rejected 1 ['0']])
      ∧ getNumbers "-5 10".toList
        = some (Outcome.dataset [LDouble.fin 10, LDouble.fin 0]
            [Event.rejected 0 ['-', '5']]) := by
  decide!

theorem startsSpace_nil : StartsSpace [] := by
  intro w hw
  simp at hw

theorem startsSpace_cons (w : Char) (r : List Char) (hw : isspace w = true) :
    StartsSpace (w :: r) := by
  intro x hx
  simp only [List.head?_cons, Option.some.injEq] at hx
  subst hx
  exact hw

theorem endsSpace_nil : EndsSpace [] := by
  intro w hw
  simp at hw

theorem endsSpace_concat (p : List Char) (w : Char) (hw : isspace w = true) :
    EndsSpace (p ++ [w]) := by
  intro x hx
  rw [List.getLast?_append, List.getLast?_singleton] at hx
  simp only [Option.or, Option.some.injEq] at hx
  subst hx
  exact hw

theorem takeWhile_token (t post : List Char) (ht : ∀ c ∈ t, isspace c = false)
    (hpost : StartsSpace post) :
    (t ++ post).takeWhile (fun c => !isspace c) = t
      ∧ (t ++ post).dropWhile (fun c => !isspace c) = post := by
  have hp : ∀ c ∈ t, (fun c => !isspace c) c = true := by
    intro c hc
    simp [ht c hc]
  have h1 : post.takeWhile (fun c => !isspace c) = [] := by
    cases post with
    | nil => rfl
    | cons w r => simp [List.takeWhile_cons, hpost w rfl]
  have h2 : post.dropWhile (fun c => !isspace c) = post := by
    cases post with
    | nil => rfl
    | cons w r => simp [List.dropWhile_cons, hpost w rfl]
  constructor
  · rw [List.takeWhile_append_of_pos hp, h1, List.append_nil]
  · rw [List.dropWhile_append_of_pos hp, h2]

theorem readDec_zeros (ds : List Char) (h : ∀ c ∈ ds, c = '0') : readDec ds = 0 := by
  induction ds with
  | nil => rfl
  | cons a ds ih =>
    have h0 : digitVal '0' = 0 := by decide
    rw [readDec_cons, ih (fun c hc => h c (List.mem_cons_of_mem _ hc)),
      h a (List.mem_cons_self _ _), h0]
    simp

theorem scale_zero (b : Nat) (e : Int) : scale b 0 e = 0 := by
  unfold scale
  split_ifs <;> simp

/-- The decimal literal of a text made of the characters `0` and `.` that starts with `0`
is 0. -/
theorem decimalLiteral_zeros (z : List Char) (hz : ∀ c ∈ z, c = '0' ∨ c = '.') :
    decimalLiteral ('0' :: z) = some 0 := by
  have hdig : ∀ c ∈ '0' :: z, isdigit c = true → c = '0' := by
    intro c hc hd
    rcases List.mem_cons.1 hc with rfl | hc
    · rfl
    · rcases hz c hc with rfl | rfl
      · rfl
      · exact absurd hd (by decide)
  have htake : ∀ c ∈ ('0' :: z).takeWhile isdigit, c = '0' := fun c hc =>
    hdig c (List.takeWhile_subset _ hc) (List.mem_takeWhile_imp hc)
  have hfr : ∀ c ∈ (('0' :: z).dropWhile isdigit).tail.takeWhile isdigit, c = '0' :=
    fun c hc =>
      hdig c ((List.dropWhile_suffix _).subset (List.mem_of_mem_tail
        (List.takeWhile_subset _ hc))) (List.mem_takeWhile_imp hc)
  have hne : (('0' :: z).takeWhile isdigit).isEmpty = false := by
    simp [List.takeWhile_cons, isdigit]
  unfold decimalLiteral
  simp only [hne, Bool.false_and, Bool.false_eq_true, if_false, Option.some.injEq]
  have hall : readDec (('0' :: z).takeWhile isdigit
      ++ (if (('0' :: z).dropWhile isdigit).head? = some '.'
          then (('0' :: z).dropWhile isdigit).tail.takeWhile isdigit else [])) = 0 := by
    apply readDec_zeros
    intro c hc
    rcases List.mem_append.1 hc with hc | hc
    · exact htake c hc
    · split_ifs at hc
      · exact hfr c hc
      · simp at hc
  rw [hall, scale_zero]

theorem toLDouble_zero : toLDouble false 0 = LDouble.fin 0 := by
  unfold toLDouble
  have h : ¬ ((HUGE_BOUND : ℚ) ≤ 0) := by
    have hpos : 0 < HUGE_BOUND := by decide!
    have : (0 : ℚ) < (HUGE_BOUND : ℚ) := by exact_mod_cast hpos
    exact not_le.2 this
  simp [h]

/-- The permissive parse of a zero-leading text of zeros and points is 0. -/
theorem strtod_zeros (z : List Char) (hz : ∀ c ∈ z, c = '0' ∨ c = '.') :
    strtod ('0' :: z) = LDouble.fin 0 := by
  have hhex : hexLiteral ('0' :: z) = none := by
    cases z with
    | nil => rfl
    | cons x s =>
      have hx : x ≠ 'x' ∧ x ≠ 'X' := by
        rcases hz x (List.mem_cons_self _ _) with rfl | rfl <;> decide
      simp [hexLiteral, hx.1, hx.2]
  rw [strtod_digit_head '0' z 0 (by decide) hhex (decimalLiteral_zeros z hz), toLDouble_zero]

/-- A token `-` followed by digits or decimal points and a white space: in any state the main
loop logs it as rejected, records nothing, and resumes after that white space, which it
consumes without clearing `chInNum`. -/
theorem scanFrom_negative_token (st : State) (ds post : List Char) (w : Char)
    (hne : ds ≠ []) (hds : ∀ c ∈ ds, (isdigit c || decide (c = '.')) = true)
    (hw : isspace w = true) :
    scanFrom st ('-' :: ds ++ w :: post)
      = scanFrom { st with log := st.log ++ [Event.rejected st.numbers.length ('-' :: ds)] }
          post := by
  have hstop : (w :: post).takeWhile (fun c => isdigit c || decide (c = '.')) = []
      ∧ (w :: post).dropWhile (fun c => isdigit c || decide (c = '.')) = w :: post := by
    simp [List.takeWhile_cons, List.dropWhile_cons, isspace_not_digit w hw,
      isspace_ne_point w hw]
  have hhead : ((ds ++ w :: post).head?.map (fun c => isdigit c || decide (c = '.'))).getD false
      = true := by
    cases ds with
    | nil => exact absurd rfl hne
    | cons a t => simpa using hds a (List.mem_cons_self _ _)
  rw [List.cons_append, scanFrom_cons]
  unfold mainStep
  rw [if_pos rfl]
  unfold negativeBranch
  rw [if_pos hhead, List.takeWhile_append_of_pos hds, List.dropWhile_append_of_pos hds,
    hstop.1, hstop.2, List.append_nil]
  rfl

/-- C3 (counterexample). On the input `0 0.00 5` the token `0.00` is not accepted as the value
0: it is rejected like the bare `0`, the array holds only 5, and the size found by
`calculateArraySize` is 1, not 2. -/
theorem zero_literal_not_accepted :
    getNumbers "0 0.00 5".toList
        = some (Outcome.dataset [LDouble.fin 5, LDouble.fin 0]
            [Event.rejected 0 ['0'], Event.rejected 0 ['0', '.', '0', '0']])
      ∧ calculateArraySize [LDouble.fin 5, LDouble.fin 0] ≠ 2
      ∧ (atof ['0', '.', '0', '0']).gtZero = false := by
  decide!

/-- The branch `ch == '0'` on a whole token: `z` is the text after the `0` up to the next white
space or the end of the stream. -/
theorem zeroBranch_token (st : State) (z post : List Char)
    (hz : ∀ c ∈ z, isspace c = false) (hpost : StartsSpace post) :
    mainStep st '0' (z ++ post)
      = (if (atof ('0' :: z)).gtZero
          then Step.next { st with numbers := st.numbers ++ [sscanf_Lf ('0' :: z)] } post.tail
          else Step.next
            { st with log := st.log ++ [Event.rejected st.numbers.length ('0' :: z)] }
            post.tail) := by
  obtain ⟨htw, hdw⟩ := takeWhile_token z post hz hpost
  unfold mainStep
  rw [if_neg (by decide), if_pos rfl]
  unfold zeroBranch
  simp only [htw, hdw]

/-- A value 0 cannot be a value of the dataset: `calculateArraySize` takes the first 0 of the
array for its end, and `frequencyTable` has no counter for it (the index would be -1).  The
test `atof(chars) > 0` of line 219 keeps such a value out of the array, whatever the text of the
token; the words `accept 0.00 float number` of the comment of line 191 can hold only for
tokens of the shape `0.dd` with a positive value (0.25, 0.5). -/
theorem zero_value_is_terminator :
    calculateArraySize [LDouble.fin 0, LDouble.fin 5, LDouble.fin 0] = 0
      ∧ bucketIndex 0 = some (-1)
      ∧ frequencyTable [0, 5, 0] 2 = none := by
  decide!

/-- C3 (amended). A zero-leading token, that is the `0` and the characters `z` up to the next
white space or the end of the stream, is accepted exactly when its permissive parse
`atof` is greater than 0: then the main loop records the converted value of the token,
otherwise it logs the token as rejected and records nothing; in both cases it resumes after
the delimiter.  A token whose other characters are zeros and decimal points (the bare `0`,
`0.00`, ...) has permissive parse 0 and is rejected.  On the input `0 0.00 5` both `0` and
`0.00` are rejected, 5 is accepted, and the dataset has size 1; on `0.5 0abc 0.00 5` the
token `0.5` is accepted as 1/2, `0abc` and `0.00` are rejected, and the dataset has size 2. -/
theorem zero_token_gate (st : State) (z post : List Char)
    (hz : ∀ c ∈ z, isspace c = false) (hpost : StartsSpace post) :
    mainStep st '0' (z ++ post)
        = (if (atof ('0' :: z)).gtZero
            then Step.next { st with numbers := st.numbers ++ [sscanf_Lf ('0' :: z)] } post.tail
            else Step.next
              { st with log := st.log ++ [Event.rejected st.numbers.length ('0' :: z)] }
              post.tail)
      ∧ scanFrom st ('0' :: z ++ post)
        = (if (atof ('0' :: z)).gtZero
            then scanFrom { st with numbers := st.numbers ++ [sscanf_Lf ('0' :: z)] } post.tail
            else scanFrom
              { st with log := st.log ++ [Event.rejected st.numbers.length ('0' :: z)] }
              post.tail)
      ∧ ((∀ c ∈ z, c = '0' ∨ c = '.') →
          atof ('0' :: z) = LDouble.fin 0
            ∧ scanFrom st ('0' :: z ++ post)
              = scanFrom
                  { st with log := st.log ++ [Event.rejected st.numbers.length ('0' :: z)] }
                  post.tail)
      ∧ getNumbers "0 0.00 5".toList
          = some (Outcome.dataset [LDouble.fin 5, LDouble.fin 0]
              [Event.rejected 0 ['0'], Event.rejected 0 ['0', '.', '0', '0']])
      ∧ calculateArraySize [LDouble.fin 5, LDouble.fin 0] = 1
      ∧ atof ['0', '.', '5'] = LDouble.fin (1 / 2)
      ∧ getNumbers "0.5 0abc 0.00 5".toList
          = some (Outcome.dataset [LDouble.fin (1 / 2), LDouble.fin 5, LDouble.fin 0]
              [Event.rejected 1 ['0', 'a', 'b', 'c'], Event.rejected 1 ['0', '.', '0', '0']])
      ∧ calculateArraySize [LDouble.fin (1 / 2), LDouble.fin 5, LDouble.fin 0] = 2 := by
  have hstep := zeroBranch_token st z post hz hpost
  have hscan : scanFrom st ('0' :: z ++ post)
      = (if (atof ('0' :: z)).gtZero
          then scanFrom { st with numbers := st.numbers ++ [sscanf_Lf ('0' :: z)] } post.tail
          else scanFrom
            { st with log := st.log ++ [Event.rejected st.numbers.length ('0' :: z)] }
            post.tail) := by
    rw [List.cons_append, scanFrom_cons, hstep]
    split_ifs <;> rfl
  refine ⟨hstep, hscan, ?_, by decide!, by decide, by decide!, by decide!, by decide!⟩
  intro hzeros
  have hparse : atof ('0' :: z) = LDouble.fin 0 := strtod_zeros z hzeros
  refine ⟨hparse, ?_⟩
  rw [hscan, hparse]
  rfl

/-- C3 (amended), witness: the token `0.5` before ` 5` is accepted as 1/2, and the loop goes on
with the `5`. -/
theorem zero_token_gate_witness :
    mainStep initState '0' (['.', '5'] ++ [' ', '5'])
        = Step.next { initState with numbers := [LDouble.fin (1 / 2)] } ['5']
      ∧ scanFrom initState ('0' :: ['.', '5'] ++ [' ', '5'])
        = scanFrom { initState with numbers := [LDouble.fin (1 / 2)] } ['5'] :=
  have h := zero_token_gate initState ['.', '5'] [' ', '5'] (by decide)
    (startsSpace_cons ' ' ['5'] (by decide))
  ⟨h.1.trans (by decide!), h.2.1.trans (by decide!)⟩

/-! ### Tokens that start with a symbol or a letter (C4) -/

theorem mainStep_done (st : State) (ch : Char) (s : List Char) (o : Outcome)
    (h : mainStep st ch s = Step.done o) : ∀ nums log, o ≠ Outcome.dataset nums log := by
  intro nums log ho
  subst ho
  unfold mainStep at h
  split_ifs at h
  · unfold negativeBranch at h
    split_ifs at h
    split at h <;> cases h
  · unfold zeroBranch at h
    simp only at h
    split_ifs at h
  · unfold symbolBranch at h
    simp only at h
    split_ifs at h
    cases h
  · unfold digitBranch at h
    simp only at h
    split_ifs at h

/-- A run of the main loop that is stopped by a token does not return an array. -/
theorem scanFrom_stopped (st : State) (s : List Char) (o : Outcome)
    (h : scanFrom st s = some (Scan.stopped o)) : ∀ nums log, o ≠ Outcome.dataset nums log := by
  generalize hn : s.length = n
  induction n using Nat.strong_induction_on generalizing st s with
  | _ n ih =>
    cases s with
    | nil => simp [scanFrom_nil] at h
    | cons ch s =>
      rw [scanFrom_cons] at h
      cases hstep : mainStep st ch s with
      | done o1 =>
        rw [hstep] at h
        simp only [Option.some.injEq, Scan.stopped.injEq] at h
        subst h
        exact mainStep_done _ _ _ _ hstep
      | next st1 r =>
        rw [hstep] at h
        have hlen := (mainStep_suffix _ _ _ _ _ hstep).length_le
        simp only [List.length_cons] at hn
        exact ih r.length (by omega) st1 r h rfl

/-- The main loop at a delimited token that starts with a character that is neither a digit,
nor `-`, nor a white space, and whose permissive parse is not greater than 0: the run is
stopped with the failure report for that token. -/
theorem scanFrom_symbol_fatal (st : State) (c : Char) (r post : List Char)
    (hc : isdigit c = false) (hminus : c ≠ '-')
    (hns : ∀ x ∈ c :: r, isspace x = false) (hpost : StartsSpace post)
    (hparse : (atof (c :: r)).gtZero = false) :
    scanFrom st (c :: r ++ post)
      = some (Scan.stopped (Outcome.failure st.numbers.length (c :: r).length (c :: r))) := by
  have hc0 : c ≠ '0' := by
    rintro rfl
    revert hc
    decide
  have hsp : isspace c = false := hns c (List.mem_cons_self _ _)
  obtain ⟨htw, -⟩ := takeWhile_token (c :: r) post hns hpost
  rw [List.cons_append, scanFrom_cons]
  unfold mainStep
  rw [if_neg hminus, if_neg hc0, if_pos (by simp [hc, hsp])]
  unfold symbolBranch
  simp only [← List.cons_append, htw, hparse, Bool.false_eq_true, if_false]

/-- C4. A white-space delimited token that begins with a character that is not a digit, not `-`
and not a white space, and whose permissive parse is not greater than 0, is fatal: when the
main loop gets through the text before it, `getNumbers` ends with the failure report for that
token (index = number of values recorded so far, length and text of the token); and whatever
precedes or follows the token, `getNumbers` ends without returning an array. -/
theorem symbol_token_fatal (pre post : List Char) (c : Char) (r : List Char)
    (hpre : EndsSpace pre) (hc : isdigit c = false) (hminus : c ≠ '-')
    (hns : ∀ x ∈ c :: r, isspace x = false) (hpost : StartsSpace post)
    (hparse : (atof (c :: r)).gtZero = false) :
    (∀ st, scanFrom initState pre = some (Scan.eof st) →
        getNumbers (pre ++ (c :: r ++ post))
          = some (Outcome.failure st.numbers.length (c :: r).length (c :: r)))
      ∧ ∃ o, getNumbers (pre ++ (c :: r ++ post)) = some o
          ∧ ∀ nums log, o ≠ Outcome.dataset nums log := by
  have happ := scanFrom_append initState pre (c :: r ++ post) hpre
  have hfat := fun st => scanFrom_symbol_fatal st c r post hc hminus hns hpost hparse
  constructor
  · intro st hst
    unfold getNumbers
    rw [happ, hst]
    simp only [hfat st, Option.map_some', Scan.outcome]
  · unfold getNumbers
    rw [happ]
    cases hp : scanFrom initState pre with
    | none =>
      have := scanFrom_isSome initState pre
      rw [hp] at this
      cases this
    | some sc =>
      cases sc with
      | stopped o => exact ⟨o, rfl, scanFrom_stopped _ _ _ hp⟩
      | eof st =>
        simp only [hfat st, Option.map_some', Scan.outcome]
        exact ⟨_, rfl, fun _ _ h => by cases h⟩

/-- C4, witness: the input `5 abc 10`. -/
theorem symbol_token_fatal_witness :
    getNumbers "5 abc 10".toList = some (Outcome.failure 1 3 ['a', 'b', 'c']) := by
  have h := (symbol_token_fatal ['5', ' '] [' ', '1', '0'] 'a' ['b', 'c']
    (endsSpace_concat ['5'] ' ' (by decide)) (by decide) (by decide) (by decide)
    (startsSpace_cons ' ' ['1', '0'] (by decide)) (by decide!)).1
    { chInNum := false, numbers := [LDouble.fin 5], log := [] } (by decide!)
  exact h

/-! ### Runs after a minus sign (C5), tokens that overflow (C6, C7), infinite values (C9) -/

theorem malformedRounds_eof (n : Nat) (chars : List Char) :
    (malformedRounds n (none, [], chars)).isSome = true := by
  induction n generalizing chars with
  | zero => rfl
  | succ n ih =>
    simp only [malformedRounds, malformedRound, Option.map_none', Option.getD_none,
      Bool.false_eq_true, if_false, List.head?_nil, List.tail_nil, Option.some_bind]
    exact ih _

/-- When `malformedRun` gives no result, the loop of lines 165-176 is still running after any
number of rounds. -/
theorem malformedRounds_of_none (s : List Char) (h : malformedRun s = none) (n : Nat)
    (chars : List Char) : (malformedRounds n (s.head?, s.tail, chars)).isSome = true := by
  induction s generalizing n chars with
  | nil => exact malformedRounds_eof n chars
  | cons c cs ih =>
    cases n with
    | zero => rfl
    | succ n =>
      have hc : isspace c = false := by
        by_contra hc
        simp [malformedRun, hc] at h
      have hcs : malformedRun cs = none := by
        simpa [malformedRun, hc] using h
      simp only [malformedRounds, malformedRound, List.head?_cons, Option.map_some',
        Option.getD_some, hc, Bool.false_eq_true, if_false, List.tail_cons, Option.some_bind]
      exact ih hcs n _

/-- When `malformedRun` returns the characters `run`, the loop of lines 165-176 is left after
`run.length` rounds, having appended `run` to `chars`. -/
theorem malformedRounds_of_some (s run : List Char) (h : malformedRun s = some run)
    (chars : List Char) :
    ∃ w rest, isspace w = true
      ∧ malformedRounds run.length (s.head?, s.tail, chars) = some (some w, rest, chars ++ run)
      ∧ malformedRound (some w, rest, chars ++ run) = none := by
  induction s generalizing run chars with
  | nil => simp [malformedRun] at h
  | cons c cs ih =>
    by_cases hc : isspace c = true
    · simp only [malformedRun, hc, if_true, Option.some.injEq] at h
      subst h
      exact ⟨c, cs, hc, by simp [malformedRounds], by simp [malformedRound, hc]⟩
    · simp only [malformedRun, hc, Bool.false_eq_true, if_false, Option.map_eq_some'] at h
      obtain ⟨run1, hrun1, rfl⟩ := h
      obtain ⟨w, rest, hw, h1, h2⟩ := ih run1 hrun1 (chars ++ [c])
      refine ⟨w, rest, hw, ?_, ?_⟩
      · simp only [List.length_cons, malformedRounds, malformedRound, List.head?_cons,
          Option.map_some', Option.getD_some, hc, Bool.false_eq_true, if_false, List.tail_cons,
          Option.some_bind]
        rw [h1]
        simp
      · simpa using h2

/-- C5 (evaluation at the failing inputs). A run `-abc` that is ended by the end of the stream
does not end with the failure report: the loop `while (!isspace(ch))` of line 165 is not left,
after any number of rounds it is still running, because at the end of the stream `ch` is
`EOF` and `isspace(EOF)` is 0.  The same happens after accepted numbers and for a lone `-`. -/
theorem minus_run_at_end_of_stream :
    getNumbers "-abc".toList = some Outcome.noExit
      ∧ getNumbers "5 -abc".toList = some Outcome.noExit
      ∧ getNumbers "-".toList = some Outcome.noExit
      ∧ (∀ n, (malformedRounds n (some 'a', ['b', 'c'], ['-'])).isSome = true)
      ∧ getNumbers "-abc 5".toList = some (Outcome.failure 0 4 ['-', 'a', 'b', 'c']) :=
  ⟨by decide, by decide!, by decide,
    fun n => malformedRounds_of_none ['a', 'b', 'c'] (by decide) n ['-'], by decide⟩

/-- C6 (evaluation at the failing input). On an input that holds one digit token too large for
a `long double`, no value is accepted, yet `getNumbers` does not end with the empty-dataset
exit: it returns an array, and the size found by `calculateArraySize` is 0. -/
theorem overflow_token_alone :
    getNumbers overflowToken
        = some (Outcome.dataset [LDouble.fin 0, LDouble.fin 0]
            [Event.rejectedInf 0 overflowToken])
      ∧ calculateArraySize [LDouble.fin 0, LDouble.fin 0] = 0 := by
  decide!

/-- C7 (evaluation at the failing input). A digit token that parses to an infinity, between
the tokens 5 and 7: a 0 is recorded in its place, so the dataset seen by the statistics stage
is cut at it and holds only 5; the same input without the token gives the dataset 5, 7. -/
theorem overflow_token_cuts_dataset :
    sscanf_Lf overflowToken = LDouble.pinf
      ∧ getNumbers (['5', ' '] ++ overflowToken ++ [' ', '7'])
        = some (Outcome.dataset [LDouble.fin 5, LDouble.fin 0, LDouble.fin 7, LDouble.fin 0]
            [Event.rejectedInf 1 overflowToken])
      ∧ datasetOf [LDouble.fin 5, LDouble.fin 0, LDouble.fin 7, LDouble.fin 0] = [LDouble.fin 5]
      ∧ getNumbers (['5', ' '] ++ [' ', '7'])
        = some (Outcome.dataset [LDouble.fin 5, LDouble.fin 7, LDouble.fin 0] [])
      ∧ datasetOf [LDouble.fin 5, LDouble.fin 7, LDouble.fin 0]
        = [LDouble.fin 5, LDouble.fin 7] := by
  decide!

/-- C9 (evaluation at the failing input). The branch for a leading symbol and the branch for a
leading `0` record an infinite value: the tokens `.5e999` and `0.1e999` pass the test
`atof(chars) > 0` and are stored without the `isinf` test of the digit branch. -/
theorem infinite_values_recorded :
    getNumbers ".5e999 0.1e999".toList
        = some (Outcome.dataset [LDouble.pinf, LDouble.pinf, LDouble.fin 0] [])
      ∧ LDouble.isinf LDouble.pinf = true := by
  decide!

/-! ### Digit tokens that hold a letter (C8) -/

theorem isalpha_props (l : Char) (h : isalpha l = true) :
    isdigit l = false ∧ l ≠ '.' := by
  have hl : (65 ≤ l.toNat ∧ l.toNat ≤ 90) ∨ (97 ≤ l.toNat ∧ l.toNat ≤ 122) := by
    simpa [isalpha] using h
  constructor
  · simp only [isdigit, decide_eq_false_iff_not]
    omega
  · rintro rfl
    revert h
    decide

/-- C8 (counterexample). A token made of a digit run, a letter and further characters does not
always give exactly one value equal to the parse of the run before the letter.  When that run
parses to an infinity, the token is rejected and a 0 is recorded, which ends the dataset (size
0).  And the token `12abc34`, standing after a white space, gives no value at all when the
letter flag is still set from the token `1a`: the array then holds the value 1 only. -/
theorem letter_token_with_overflow_run :
    strtod overflowToken = LDouble.pinf
      ∧ getNumbers (overflowToken ++ ['a', 'b', 'c', '3', '4'])
        = some (Outcome.dataset [LDouble.fin 0, LDouble.fin 0]
            [Event.rejectedInf 0 overflowToken])
      ∧ datasetOf [LDouble.fin 0, LDouble.fin 0] = []
      ∧ getNumbers "1a$0 12abc34".toList
        = some (Outcome.dataset [LDouble.fin 1, LDouble.fin 0] [Event.rejected 1 ['0']]) := by
  decide!

/-- C8 (amended). A token that starts with a digit `1`-`9`, continues with digits or decimal
points (the run `d :: p`), then holds a letter followed by letters, digits or decimal points,
read by the main loop with the letter flag clear and with a run that parses to a finite value:
exactly one value is appended, the parse of the run before the first letter, and the
characters after the letter create no value.  After a white space the main loop goes on with
the flag clear; at the end of the stream it ends with that one value appended. -/
theorem letter_token_truncated (pre post : List Char) (st : State) (d l w : Char)
    (p q : List Char) (hpre : EndsSpace pre)
    (hst : scanFrom initState pre = some (Scan.eof st)) (hflag : st.chInNum = false)
    (hd : 49 ≤ d.toNat ∧ d.toNat ≤ 57)
    (hp : ∀ c ∈ p, isdigit c = true ∨ c = '.')
    (hl : isalpha l = true)
    (hq : ∀ c ∈ q, isalpha c = true ∨ isdigit c = true ∨ c = '.')
    (hfin : (strtod (d :: p)).isinf = false) (hw : isspace w = true) :
    scanFrom initState (pre ++ ((d :: p ++ l :: q) ++ w :: post))
        = scanFrom { chInNum := false, numbers := st.numbers ++ [strtod (d :: p)],
                     log := st.log } post
      ∧ scanFrom initState (pre ++ (d :: p ++ l :: q))
        = some (Scan.eof { chInNum := true, numbers := st.numbers ++ [strtod (d :: p)],
                           log := st.log }) := by
  have hdig : isdigit d = true := by
    simp only [isdigit, decide_eq_true_eq]
    omega
  have hd0 : d ≠ '0' := by
    rintro rfl
    revert hd
    decide
  have hp1 : ∀ c ∈ p, (isdigit c || decide (c = '.')) = true := by
    intro c hc
    rcases hp c hc with h | h <;> simp [h]
  have hq1 : ∀ c ∈ l :: q, (isdigit c || decide (c = '.') || isalpha c) = true := by
    intro c hc
    rcases List.mem_cons.1 hc with rfl | hc
    · simp [hl]
    · rcases hq c hc with h | h | h <;> simp [h]
  have hq0 : ∀ x, (l :: q).head? = some x → (isdigit x || decide (x = '.')) = false := by
    intro x hx
    simp only [List.head?_cons, Option.some.injEq] at hx
    subst hx
    simp [(isalpha_props _ hl).1, (isalpha_props _ hl).2]
  have hstep : ∀ rest, StartsSpace rest →
      mainStep st d (p ++ l :: q ++ rest)
        = Step.next { chInNum := true, numbers := st.numbers ++ [strtod (d :: p)],
                      log := st.log } rest := by
    intro rest hrest
    rw [mainStep_digitToken st d p (l :: q) rest hdig hd0 hp1 hq1 hq0 hflag hrest]
    simp [sscanf_Lf, hfin]
  constructor
  · rw [scanFrom_append initState pre _ hpre, hst]
    simp only [List.cons_append, List.append_assoc]
    rw [scanFrom_cons]
    have := hstep (w :: post) (startsSpace_cons w post hw)
    simp only [List.cons_append, List.append_assoc] at this
    rw [this]
    simp only
    rw [scanFrom_space _ _ _ hw]
  · have h2 := scanFrom_append initState pre (d :: p ++ l :: q) hpre
    rw [hst] at h2
    simp only at h2
    rw [h2, List.cons_append, scanFrom_cons]
    have := hstep [] startsSpace_nil
    simp only [List.append_nil] at this
    rw [this]
    simp only [scanFrom_nil]

/-- C8 (amended), witness: the token `12abc34` alone gives the single value 12. -/
theorem letter_token_truncated_witness :
    getNumbers "12abc34".toList = some (Outcome.dataset [LDouble.fin 12, LDouble.fin 0] []) := by
  have h := (letter_token_truncated [] [] initState '1' 'a' ' ' ['2'] ['b', 'c', '3', '4']
    endsSpace_nil rfl rfl (by decide) (by decide) (by decide) (by decide) (by decide!)
    (by decide)).2
  have e : strtod ['1', '2'] = LDouble.fin 12 := by decide!
  rw [e] at h
  unfold getNumbers
  have e2 : "12abc34".toList = [] ++ ('1' :: ['2'] ++ 'a' :: ['b', 'c', '3', '4']) := by decide
  rw [e2, h]
  rfl

/-! ### Range, median and variance of the sorted dataset (C10) -/

theorem compare_num_le (x y : ℚ) : compare_num x y ≤ 0 ↔ x ≤ y := by
  unfold compare_num
  split_ifs with h1 h2
  · constructor
    · intro h
      norm_num at h
    · intro h
      exact absurd h (not_le.2 h1)
  · constructor
    · intro _
      exact le_of_lt h2
    · intro _
      norm_num
  · constructor
    · intro _
      exact not_lt.1 h1
    · intro _
      exact le_refl _

/-- The array after `sortNumbers` is in ascending order. -/
theorem sortNumbers_sorted (a : List ℚ) : (sortNumbers a).Sorted (· ≤ ·) := by
  haveI : IsTotal ℚ (fun x y => compare_num x y ≤ 0) :=
    ⟨fun x y => by
      simp only [compare_num_le]
      exact le_total x y⟩
  haveI : IsTrans ℚ (fun x y => compare_num x y ≤ 0) :=
    ⟨fun x y z hxy hyz => by
      simp only [compare_num_le] at *
      exact le_trans hxy hyz⟩
  have h := List.sorted_insertionSort (fun x y : ℚ => compare_num x y ≤ 0) a
  exact List.Pairwise.imp (fun hxy => (compare_num_le _ _).1 hxy) h

theorem sortNumbers_length (a : List ℚ) : (sortNumbers a).length = a.length :=
  List.length_insertionSort _ a

theorem getD_mono (s : List ℚ) (hs : s.Sorted (· ≤ ·)) (i j : Nat) (hij : i ≤ j)
    (hj : j < s.length) : s.getD i 0 ≤ s.getD j 0 := by
  rw [List.getD_eq_getElem s 0 (lt_of_le_of_lt hij hj), List.getD_eq_getElem s 0 hj]
  exact hs.rel_get_of_le (a := ⟨i, lt_of_le_of_lt hij hj⟩) (b := ⟨j, hj⟩) hij

theorem foldl_squares_nonneg (f : Nat → ℚ) (l : List Nat) (v : ℚ) (hv : 0 ≤ v) :
    0 ≤ l.foldl (fun variance i => variance + (f i) ^ 2) v := by
  induction l generalizing v with
  | nil => exact hv
  | cons i l ih =>
    rw [List.foldl_cons]
    exact ih _ (add_nonneg hv (sq_nonneg _))

/-- C10. For every dataset of size at least 1, after `sortNumbers` the values computed by
`calculateRange`, `calStatisticalMedian` and `calVariance` (with the mean of
`calArithmeticMean`) satisfy `rangeMin ≤ statisticalMedian ≤ rangeMax` and `0 ≤ variance`,
in exact arithmetic. -/
theorem range_median_variance (a : List ℚ) (hsize : 1 ≤ a.length) :
    (calculateRange (sortNumbers a) a.length).1 ≤ calStatisticalMedian (sortNumbers a) a.length
      ∧ calStatisticalMedian (sortNumbers a) a.length
          ≤ (calculateRange (sortNumbers a) a.length).2
      ∧ 0 ≤ calVariance (sortNumbers a) a.length
          (calArithmeticMean (sortNumbers a) a.length) := by
  have hs := sortNumbers_sorted a
  have hlen := sortNumbers_length a
  have mono : ∀ i j, i ≤ j → j < a.length →
      (sortNumbers a).getD i 0 ≤ (sortNumbers a).getD j 0 := by
    intro i j hij hj
    exact getD_mono _ hs i j hij (by rw [hlen]; exact hj)
  refine ⟨?_, ?_, ?_⟩
  · unfold calculateRange calStatisticalMedian
    simp only
    split_ifs with hpar
    · have h1 := mono 0 (a.length / 2 - 1) (Nat.zero_le _) (by omega)
      have h2 := mono 0 (a.length / 2 + 1 - 1) (Nat.zero_le _) (by omega)
      linarith
    · exact mono 0 (a.length / 2 + 1 - 1) (Nat.zero_le _) (by omega)
  · unfold calculateRange calStatisticalMedian
    simp only
    split_ifs with hpar
    · have h1 := mono (a.length / 2 - 1) (a.length - 1) (by omega) (by omega)
      have h2 := mono (a.length / 2 + 1 - 1) (a.length - 1) (by omega) (by omega)
      linarith
    · exact mono (a.length / 2 + 1 - 1) (a.length - 1) (by omega) (by omega)
  · unfold calVariance
    apply div_nonneg
    · exact foldl_squares_nonneg _ _ 0 (le_refl 0)
    · exact Nat.cast_nonneg _

/-- C10, witness: the dataset 15, 5, 10. -/
theorem range_median_variance_witness :
    (calculateRange (sortNumbers [15, 5, 10]) 3).1 ≤ calStatisticalMedian (sortNumbers [15, 5, 10]) 3
      ∧ calStatisticalMedian (sortNumbers [15, 5, 10]) 3
          ≤ (calculateRange (sortNumbers [15, 5, 10]) 3).2
      ∧ 0 ≤ calVariance (sortNumbers [15, 5, 10]) 3
          (calArithmeticMean (sortNumbers [15, 5, 10]) 3) :=
  range_median_variance [15, 5, 10] (by decide)

/-! ### Modes (C11, C13), a single value (C14), sorting twice (C15), conformance (C17), the letter flag (C19) -/

/-- C11 (evaluation at the failing input). The sorted dataset 1,1,2,2,3,3,4,4,5,5,6 has five
values with the longest run length 2.  `calMode` ends with `modeFH + 1 = 2` and `numModes = 5`,
but the fifth mode is written to `modeNums[4]` while the buffer has 4 cells, so the contents
of `modeNums` are not determined.  With four tied values, and on 2,2,3, the buffer holds the
modes. -/
theorem calMode_five_ties :
    (calMode [1, 1, 2, 2, 3, 3, 4, 4, 5, 5, 6, 0] 11).modeFH + 1 = 2
      ∧ (calMode [1, 1, 2, 2, 3, 3, 4, 4, 5, 5, 6, 0] 11).numModes = 5
      ∧ (calMode [1, 1, 2, 2, 3, 3, 4, 4, 5, 5, 6, 0] 11).capacity = 4
      ∧ (calMode [1, 1, 2, 2, 3, 3, 4, 4, 5, 5, 6, 0] 11).modeNums = none
      ∧ (calMode [1, 1, 2, 2, 3, 3, 4, 4, 6, 0] 9).modeNums = some [1, 2, 3, 4]
      ∧ calMode [2, 2, 3, 0] 3
        = { capacity := 4, a_index := 0, modeF := 0, modeFH := 1, numModes := 1,
            modeNums := some [2] } := by
  decide!

/-- C13 (counterexample). For the dataset that holds the single value 7, `calMode` does not
yield a mode set that contains 7: nothing is written to the mode buffer, `numModes` is 0, and
the dataset is reported as "no mode". -/
theorem single_value_reported_no_mode :
    calMode [7, 0] 1 = initMode
      ∧ (calMode [7, 0] 1).numModes = 0
      ∧ (calMode [7, 0] 1).modeNums = some []
      ∧ noModeReported (calMode [7, 0] 1) 1 = true := by
  decide!

/-- C13 (amended). For a dataset with a single value, `calMode` records no mode: `numModes` is
0, `modeFH` is 0 (so `modeFH + 1` is 1), no value is written to the mode buffer, and the test of
the report holds: the dataset is reported as "no mode". -/
theorem single_value_no_mode (v : ℚ) :
    (calMode [v, 0] 1).numModes = 0
      ∧ (calMode [v, 0] 1).modeFH + 1 = 1
      ∧ (calMode [v, 0] 1).modeNums = some []
      ∧ noModeReported (calMode [v, 0] 1) 1 = true := by
  by_cases hv : v = 0
  · subst hv
    decide!
  · simp [calMode, calModeLoop, calModeStep, initMode, noModeReported, hv]

/-- C14. For a dataset with a single value, `calArithmeticMean` yields exactly that value and
`calVariance`, given that mean, yields exactly 0. -/
theorem single_value_mean_variance (v : ℚ) (rest : List ℚ) :
    calArithmeticMean (v :: rest) 1 = v
      ∧ calVariance (v :: rest) 1 (calArithmeticMean (v :: rest) 1) = 0 := by
  have hmean : calArithmeticMean (v :: rest) 1 = v := by
    simp [calArithmeticMean, List.range_succ]
  refine ⟨hmean, ?_⟩
  rw [hmean]
  simp [calVariance, List.range_succ]

/-- C15. `sortNumbers` is idempotent: sorting the result of `sortNumbers` again with
`sortNumbers` (ordering by `compare_num`) yields the same sequence. -/
theorem sortNumbers_idempotent (a : List ℚ) : sortNumbers (sortNumbers a) = sortNumbers a := by
  haveI : IsTotal ℚ (fun x y => compare_num x y ≤ 0) :=
    ⟨fun x y => by
      simp only [compare_num_le]
      exact le_total x y⟩
  haveI : IsTrans ℚ (fun x y => compare_num x y ≤ 0) :=
    ⟨fun x y z hxy hyz => by
      simp only [compare_num_le] at *
      exact le_trans hxy hyz⟩
  exact List.Sorted.insertionSort_eq
    (List.sorted_insertionSort (fun x y : ℚ => compare_num x y ≤ 0) a)

/-- C17. For every `NBDeviation` `d ≥ 0` the chain of tests of `printOutput` selects exactly one
statement, the one given by the thresholds: very strong for `0 ≤ d < 0.1`, strong for
`0.1 ≤ d < 0.2`, moderate for `0.2 ≤ d < 0.35`, weak for `0.35 ≤ d < 0.5`, none for
`0.5 ≤ d`; each lower bound is inclusive, each upper bound exclusive. -/
theorem conformance_thresholds {K : Type} [LinearOrderedField K] (d : K) (hd : 0 ≤ d) :
    (d < 1 / 10 → conformance d = some Conformance.veryStrong)
      ∧ (1 / 10 ≤ d → d < 2 / 10 → conformance d = some Conformance.strong)
      ∧ (2 / 10 ≤ d → d < 35 / 100 → conformance d = some Conformance.moderate)
      ∧ (35 / 100 ≤ d → d < 5 / 10 → conformance d = some Conformance.weak)
      ∧ (5 / 10 ≤ d → conformance d = some Conformance.notBenford)
      ∧ ∃! c, conformance d = some c := by
  have h12 : (1 : K) / 10 < 2 / 10 := by norm_num
  have h23 : (2 : K) / 10 < 35 / 100 := by norm_num
  have h34 : (35 : K) / 100 < 5 / 10 := by norm_num
  have c1 : d < 1 / 10 → conformance d = some Conformance.veryStrong := by
    intro h
    unfold conformance
    rw [if_pos ⟨hd, h⟩]
  have c2 : 1 / 10 ≤ d → d < 2 / 10 → conformance d = some Conformance.strong := by
    intro h1 h2
    unfold conformance
    rw [if_neg (fun h => absurd h.2 (not_lt.2 h1)), if_pos ⟨h1, h2⟩]
  have c3 : 2 / 10 ≤ d → d < 35 / 100 → conformance d = some Conformance.moderate := by
    intro h1 h2
    unfold conformance
    rw [if_neg (fun h => absurd h.2 (not_lt.2 (le_trans h12.le h1))),
      if_neg (fun h => absurd h.2 (not_lt.2 h1)), if_pos ⟨h1, h2⟩]
  have c4 : 35 / 100 ≤ d → d < 5 / 10 → conformance d = some Conformance.weak := by
    intro h1 h2
    unfold conformance
    rw [if_neg (fun h => absurd h.2 (not_lt.2 (le_trans h12.le (le_trans h23.le h1)))),
      if_neg (fun h => absurd h.2 (not_lt.2 (le_trans h23.le h1))),
      if_neg (fun h => absurd h.2 (not_lt.2 h1)), if_pos ⟨h1, h2⟩]
  have c5 : 5 / 10 ≤ d → conformance d = some Conformance.notBenford := by
    intro h1
    unfold conformance
    rw [if_neg (fun h => absurd h.2
        (not_lt.2 (le_trans h12.le (le_trans h23.le (le_trans h34.le h1))))),
      if_neg (fun h => absurd h.2 (not_lt.2 (le_trans h23.le (le_trans h34.le h1)))),
      if_neg (fun h => absurd h.2 (not_lt.2 (le_trans h34.le h1))),
      if_neg (fun h => absurd h.2 (not_lt.2 h1)), if_pos h1]
  refine ⟨c1, c2, c3, c4, c5, ?_⟩
  have hex : ∃ c, conformance d = some c := by
    rcases lt_or_le d (1 / 10) with h | h
    · exact ⟨_, c1 h⟩
    rcases lt_or_le d (2 / 10) with h' | h'
    · exact ⟨_, c2 h h'⟩
    rcases lt_or_le d (35 / 100) with h'' | h''
    · exact ⟨_, c3 h' h''⟩
    rcases lt_or_le d (5 / 10) with h3 | h3
    · exact ⟨_, c4 h'' h3⟩
    · exact ⟨_, c5 h3⟩
  obtain ⟨c, hc⟩ := hex
  exact ⟨c, hc, fun c' hc' => by
    rw [hc] at hc'
    exact (Option.some.inj hc').symm⟩

/-- C17, witness: the deviation 0.25 is reported as moderate. -/
theorem conformance_thresholds_witness :
    conformance ((1 : ℚ) / 4) = some Conformance.moderate :=
  (conformance_thresholds ((1 : ℚ) / 4) (by norm_num)).2.2.1 (by norm_num) (by norm_num)

/-- C19 (evaluation at the failing input). On the input `1a$7` the letter of the token `1a`
sets `chInNum`; the character `$` ends that run and is consumed inside the digit branch, so the
flag is still set when the main loop starts the run `7`: the digit is not copied and the run
records no entry.  When a white space ends the run (`1a 7`), the flag is cleared and 7 is
recorded. -/
theorem stale_letter_flag :
    scanFrom initState "1a$".toList
        = some (Scan.eof { chInNum := true, numbers := [LDouble.fin 1], log := [] })
      ∧ mainStep { chInNum := true, numbers := [LDouble.fin 1], log := [] } '7' []
        = Step.next { chInNum := true, numbers := [LDouble.fin 1], log := [] } []
      ∧ getNumbers "1a$7".toList = some (Outcome.dataset [LDouble.fin 1, LDouble.fin 0] [])
      ∧ getNumbers "1a 7".toList
        = some (Outcome.dataset [LDouble.fin 1, LDouble.fin 7, LDouble.fin 0] []) := by
  decide!

/-! ### The Newcomb-Benford deviation (C18) -/

theorem conformance_zero {K : Type} [LinearOrderedField K] :
    conformance (0 : K) = some Conformance.veryStrong := by
  unfold conformance
  rw [if_pos ⟨le_refl 0, by norm_num⟩]

/-- The accumulation loop of `calNB` (lines 583-586) from any starting value. -/
theorem calNB_fold {K : Type} [Field K] (sqrt : K → K) (v0 : K) (P A : List K) :
    calNB sqrt v0 P A
      = ((v0 + ∑ i in Finset.range 9, (A.getD i 0 / P.getD i 0 - 1) ^ 2) / 9,
         sqrt ((v0 + ∑ i in Finset.range 9, (A.getD i 0 / P.getD i 0 - 1) ^ 2) / 9)) := by
  have hsum : (List.range 9).foldl
      (fun variance i => variance + (A.getD i 0 / P.getD i 0 - 1) ^ 2) v0
      = v0 + ∑ i in Finset.range 9, (A.getD i 0 / P.getD i 0 - 1) ^ 2 := by
    simp only [List.range_succ, List.range_zero, List.nil_append, List.cons_append,
      List.foldl_cons, List.foldl_nil, Finset.sum_range_succ, Finset.sum_range_zero]
    ring
  unfold calNB
  simp only [hsum]

/-- C18. `calNB`, called with `data.NBVariance = 0`, computes for all expected frequencies `P`
and actual frequencies `A` the values `NBVariance = (1/9) * Σ ((A[d] / P[d]) - 1)^2` over the
nine digits and `NBDeviation = sqrt(NBVariance)`.  Hence, when the actual frequency equals the
(non-zero) expected frequency for all nine digits, `NBVariance = 0`, `NBDeviation = 0` and the
relationship is reported as very strong.  With the first actual frequency twice the expected
one and the others equal, `NBVariance = 1/9`, `NBDeviation = 1/3` and the relationship is
reported as moderate. -/
theorem calNB_formula (P A : List ℝ) :
    (calNB Real.sqrt 0 P A).1
        = (1 / 9) * ∑ i in Finset.range 9, (A.getD i 0 / P.getD i 0 - 1) ^ 2
      ∧ (calNB Real.sqrt 0 P A).2
        = Real.sqrt ((1 / 9) * ∑ i in Finset.range 9, (A.getD i 0 / P.getD i 0 - 1) ^ 2)
      ∧ ((∀ i, i < 9 → A.getD i 0 = P.getD i 0 ∧ P.getD i 0 ≠ 0) →
          (calNB Real.sqrt 0 P A).1 = 0 ∧ (calNB Real.sqrt 0 P A).2 = 0
            ∧ conformance (calNB Real.sqrt 0 P A).2 = some Conformance.veryStrong)
      ∧ (calNB Real.sqrt 0 [30, 18, 12, 10, 8, 7, 6, 5, 4] [60, 18, 12, 10, 8, 7, 6, 5, 4]).1
          = 1 / 9
      ∧ (calNB Real.sqrt 0 [30, 18, 12, 10, 8, 7, 6, 5, 4] [60, 18, 12, 10, 8, 7, 6, 5, 4]).2
          = 1 / 3
      ∧ conformance
          (calNB Real.sqrt 0 [30, 18, 12, 10, 8, 7, 6, 5, 4] [60, 18, 12, 10, 8, 7, 6, 5, 4]).2
          = some Conformance.moderate := by
  have hall : ∀ P A : List ℝ, calNB Real.sqrt 0 P A
      = ((1 / 9) * ∑ i in Finset.range 9, (A.getD i 0 / P.getD i 0 - 1) ^ 2,
         Real.sqrt ((1 / 9) * ∑ i in Finset.range 9, (A.getD i 0 / P.getD i 0 - 1) ^ 2)) := by
    intro P A
    rw [calNB_fold, zero_add, div_eq_inv_mul, one_div]
  have hex : (1 / 9 : ℝ) * ∑ i in Finset.range 9,
      (([60, 18, 12, 10, 8, 7, 6, 5, 4] : List ℝ).getD i 0
        / ([30, 18, 12, 10, 8, 7, 6, 5, 4] : List ℝ).getD i 0 - 1) ^ 2 = 1 / 9 := by
    simp only [Finset.sum_range_succ, Finset.sum_range_zero, List.getD_cons_zero,
      List.getD_cons_succ]
    norm_num
  have hsqrt : Real.sqrt (1 / 9) = 1 / 3 := by
    rw [show (1 / 9 : ℝ) = (1 / 3) ^ 2 by norm_num]
    exact Real.sqrt_sq (by norm_num)
  refine ⟨by rw [hall], by rw [hall], ?_, by rw [hall, hex], by rw [hall, hex, hsqrt], ?_⟩
  · intro h
    have hterm : ∀ i, i < 9 → (A.getD i 0 / P.getD i 0 - 1) ^ 2 = 0 := by
      intro i hi
      obtain ⟨h1, h2⟩ := h i hi
      rw [h1, div_self h2]
      norm_num
    have hzero : (1 / 9 : ℝ) * ∑ i in Finset.range 9, (A.getD i 0 / P.getD i 0 - 1) ^ 2 = 0 := by
      rw [Finset.sum_eq_zero (fun i hi => hterm i (Finset.mem_range.1 hi))]
      norm_num
    rw [hall, hzero, Real.sqrt_zero]
    exact ⟨rfl, rfl, conformance_zero⟩
  · rw [hall, hex, hsqrt]
    unfold conformance
    rw [if_neg (by norm_num), if_neg (by norm_num), if_pos (by norm_num)]

/-- C18, witness: actual frequencies equal to the expected frequencies 30, 18, 12, 10, 8, 7,
6, 5, 4. -/
theorem calNB_formula_witness :
    (calNB Real.sqrt 0 [30, 18, 12, 10, 8, 7, 6, 5, 4] [30, 18, 12, 10, 8, 7, 6, 5, 4]).1 = 0
      ∧ (calNB Real.sqrt 0 [30, 18, 12, 10, 8, 7, 6, 5, 4] [30, 18, 12, 10, 8, 7, 6, 5, 4]).2
        = 0
      ∧ conformance
          (calNB Real.sqrt 0 [30, 18, 12, 10, 8, 7, 6, 5, 4] [30, 18, 12, 10, 8, 7, 6, 5, 4]).2
        = some Conformance.veryStrong :=
  (calNB_formula [30, 18, 12, 10, 8, 7, 6, 5, 4] [30, 18, 12, 10, 8, 7, 6, 5, 4]).2.2.1
    (fun i hi => by
      interval_cases i <;> simp)

/-! ### The leading digit of values of at least 1 (C16) -/

/-- The loop that divides by 10 ends within its fuel with `digit / 10 ^ j` in `[1, 10)`. -/
theorem leadingLoop_spec (n : Nat) (d : ℚ) (h1 : 1 ≤ d) (hn : d < 10 ^ n) :
    ∃ j : Nat, leadingLoop n d = some (d / 10 ^ j) ∧ 1 ≤ d / 10 ^ j ∧ d / 10 ^ j < 10 := by
  induction n generalizing d with
  | zero =>
    simp only [pow_zero] at hn
    exact absurd h1 (not_le.2 hn)
  | succ n ih =>
    by_cases h10 : d ≥ 10
    · have hd1 : 1 ≤ d / 10 := by
        rw [le_div_iff₀ (by norm_num)]
        linarith
      have hdn : d / 10 < 10 ^ n := by
        rw [div_lt_iff₀ (by norm_num)]
        rw [pow_succ] at hn
        linarith
      obtain ⟨j, hj, hlo, hhi⟩ := ih (d / 10) hd1 hdn
      have e : d / 10 / 10 ^ j = d / 10 ^ (j + 1) := by
        rw [pow_succ, div_div]
        ring_nf
      refine ⟨j + 1, ?_, ?_, ?_⟩
      · simp only [leadingLoop, h10, if_true]
        rw [hj, e]
      · rw [← e]
        exact hlo
      · rw [← e]
        exact hhi
    · refine ⟨0, ?_, ?_, ?_⟩
      · simp [leadingLoop, h10]
      · simpa using h1
      · simpa using not_le.1 h10

theorem lt_pow_floor_succ (x : ℚ) : x < 10 ^ (⌊x⌋₊ + 1) := by
  have h1 : x < (⌊x⌋₊ : ℚ) + 1 := Nat.lt_floor_add_one x
  have h2 : ⌊x⌋₊ + 1 ≤ 10 ^ (⌊x⌋₊ + 1) :=
    Nat.le_of_lt (Nat.lt_pow_self (a := 10) (by norm_num) (⌊x⌋₊ + 1))
  have h3 : ((⌊x⌋₊ + 1 : ℕ) : ℚ) ≤ ((10 ^ (⌊x⌋₊ + 1) : ℕ) : ℚ) := by exact_mod_cast h2
  push_cast at h3
  linarith

theorem truncInt_of_nonneg (x : ℚ) (hx : 0 ≤ x) : truncInt x = ⌊x⌋ := by
  simp [truncInt, hx]

/-- For a value in `[1, 10)` the conversion to `int` gives a digit between 1 and 9 that
brackets the value. -/
theorem floor_digit (r : ℚ) (h1 : 1 ≤ r) (h10 : r < 10) :
    ∃ digit : Nat, 1 ≤ digit ∧ digit ≤ 9 ∧ truncInt r = (digit : Int)
      ∧ (digit : ℚ) ≤ r ∧ r < (digit : ℚ) + 1 := by
  have hr0 : (0 : ℚ) ≤ r := by linarith
  have hfl1 : (1 : Int) ≤ ⌊r⌋ := Int.le_floor.2 (by simpa using h1)
  have hfl9 : ⌊r⌋ < 10 := Int.floor_lt.2 (by simpa using h10)
  refine ⟨⌊r⌋.toNat, ?_, ?_, ?_, ?_, ?_⟩
  · omega
  · omega
  · rw [truncInt_of_nonneg r hr0]
    omega
  · have : ((⌊r⌋.toNat : Int) : ℚ) = (⌊r⌋ : ℚ) := by
      have : (⌊r⌋.toNat : Int) = ⌊r⌋ := Int.toNat_of_nonneg (by omega)
      rw [this]
    have h2 : ((⌊r⌋.toNat : ℕ) : ℚ) = (⌊r⌋ : ℚ) := by
      rw [← this]
      norm_cast
    rw [h2]
    exact Int.floor_le r
  · have : ((⌊r⌋.toNat : Int) : ℚ) = (⌊r⌋ : ℚ) := by
      have : (⌊r⌋.toNat : Int) = ⌊r⌋ := Int.toNat_of_nonneg (by omega)
      rw [this]
    have h2 : ((⌊r⌋.toNat : ℕ) : ℚ) = (⌊r⌋ : ℚ) := by
      rw [← this]
      norm_cast
    rw [h2]
    exact Int.lt_floor_add_one r

/-- The bucket of a value `v ≥ 1` is the one of its leading decimal digit. -/
theorem bucketIndex_leading (v : ℚ) (hv : 1 ≤ v) :
    ∃ (digit k : Nat), 1 ≤ digit ∧ digit ≤ 9 ∧ (digit : ℚ) * 10 ^ k ≤ v
      ∧ v < ((digit : ℚ) + 1) * 10 ^ k ∧ bucketIndex v = some ((digit : Int) - 1) := by
  by_cases h10 : v < 10
  · obtain ⟨digit, hd1, hd9, htr, hlo, hhi⟩ := floor_digit v hv h10
    refine ⟨digit, 0, hd1, hd9, by simpa using hlo, by simpa using hhi, ?_⟩
    unfold bucketIndex
    rw [if_neg (not_lt.2 hv), if_pos h10, htr]
  · have hv10 : 10 ≤ v := not_lt.1 h10
    have hq1 : 1 ≤ v / 10 := by
      rw [le_div_iff₀ (by norm_num)]
      linarith
    have hq0 : v / 10 ≠ 0 := by
      intro h
      rw [h] at hq1
      norm_num at hq1
    obtain ⟨j, hj, hlo, hhi⟩ := leadingLoop_spec (⌊v / 10⌋₊ + 1) (v / 10) hq1
      (lt_pow_floor_succ _)
    obtain ⟨digit, hd1, hd9, htr, hdlo, hdhi⟩ := floor_digit _ hlo hhi
    have hpow : (0 : ℚ) < 10 ^ (j + 1) := by positivity
    have e : v / 10 / 10 ^ j = v / 10 ^ (j + 1) := by
      rw [pow_succ, div_div]
      ring_nf
    rw [e] at hdlo hdhi
    refine ⟨digit, j + 1, hd1, hd9, ?_, ?_, ?_⟩
    · exact (le_div_iff₀ hpow).1 hdlo
    · exact (div_lt_iff₀ hpow).1 hdhi
    · unfold bucketIndex
      rw [if_neg (not_lt.2 hv), if_neg h10, if_neg hq0, hj]
      simp only [Option.map_some', htr]

/-- C16. For every dataset value `v ≥ 1`, the pass of the loop of `frequencyTable` for `v`
increments exactly one counter of the raw frequency table, the one at index `digit - 1`, where
`digit` is between 1 and 9 and is the leading decimal digit of `v`
(`digit * 10^k ≤ v < (digit + 1) * 10^k` for some `k`).  The dataset 5, 10, 15 gives
`fre_array[0] = 2`, `fre_array[4] = 1` and 0 in every other counter. -/
theorem leading_digit_bucket (v : ℚ) (hv : 1 ≤ v) (rest : List ℚ) (n : Nat) (fre : List Int) :
    (∃ (digit k : Nat), 1 ≤ digit ∧ digit ≤ 9 ∧ (digit : ℚ) * 10 ^ k ≤ v
        ∧ v < ((digit : ℚ) + 1) * 10 ^ k
        ∧ rawFrequency (v :: rest) (n + 1) fre
          = rawFrequency rest n (fre.set (digit - 1) (fre.getD (digit - 1) 0 + 1)))
      ∧ frequencyTable [5, 10, 15, 0] 3 = some [2, 0, 0, 0, 1, 0, 0, 0, 0] := by
  refine ⟨?_, by decide!⟩
  obtain ⟨digit, k, hd1, hd9, hlo, hhi, hb⟩ := bucketIndex_leading v hv
  refine ⟨digit, k, hd1, hd9, hlo, hhi, ?_⟩
  have hidx : ((digit : Int) - 1).toNat = digit - 1 := by omega
  have hinc : incrementBucket fre ((digit : Int) - 1)
      = some (fre.set (digit - 1) (fre.getD (digit - 1) 0 + 1)) := by
    unfold incrementBucket
    rw [if_pos ⟨by omega, by omega⟩, hidx]
  simp only [rawFrequency, hb, hinc]

/-- C16, witness: the value 15 and the table after 5 and 10. -/
theorem leading_digit_bucket_witness :
    ∃ (digit k : Nat), 1 ≤ digit ∧ digit ≤ 9 ∧ (digit : ℚ) * 10 ^ k ≤ 15
        ∧ (15 : ℚ) < ((digit : ℚ) + 1) * 10 ^ k
        ∧ rawFrequency (15 :: [0]) (0 + 1) [1, 0, 0, 0, 1, 0, 0, 0, 0]
          = rawFrequency [0] 0 (([1, 0, 0, 0, 1, 0, 0, 0, 0] : List Int).set (digit - 1)
              (([1, 0, 0, 0, 1, 0, 0, 0, 0] : List Int).getD (digit - 1) 0 + 1)) :=
  (leading_digit_bucket 15 (by norm_num) [0] 0 [1, 0, 0, 0, 1, 0, 0, 0, 0]).1

/-! ### The digit of values below 1 (C20) -/

theorem sciMantissa_bounds (n : Nat) (x : ℚ) (h0 : 0 < x) (h10 : x < 10)
    (hn : 1 ≤ x * 10 ^ n) : 1 ≤ sciMantissa n x ∧ sciMantissa n x < 10 := by
  induction n generalizing x with
  | zero =>
    simp only [pow_zero, mul_one] at hn
    exact ⟨hn, h10⟩
  | succ n ih =>
    unfold sciMantissa
    split_ifs with h1
    · apply ih (x * 10) (by linarith) (by linarith)
      rw [pow_succ] at hn
      linarith
    · exact ⟨not_lt.1 h1, h10⟩

theorem one_le_mul_pow_den (v : ℚ) (h0 : 0 < v) : 1 ≤ v * 10 ^ v.den := by
  have hden : (0 : ℚ) < v.den := by exact_mod_cast v.den_pos
  have hnum : (1 : ℚ) ≤ v.num := by
    have : 0 < v.num := Rat.num_pos.2 h0
    exact_mod_cast this
  have hpow : (v.den : ℚ) ≤ 10 ^ v.den := by
    have := Nat.le_of_lt (Nat.lt_pow_self (a := 10) (by norm_num) v.den)
    exact_mod_cast this
  have h1 : 1 ≤ v * v.den := by
    have : v * v.den = v.num := Rat.mul_den_eq_num v
    rw [this]
    exact hnum
  calc (1 : ℚ) ≤ v * v.den := h1
    _ ≤ v * 10 ^ v.den := by
      apply mul_le_mul_of_nonneg_left hpow h0.le

/-- The mantissa used for the text of `%e` lies in `[1, 10)` for every positive value below 1. -/
theorem sciMantissa_range (v : ℚ) (h0 : 0 < v) (h1 : v < 1) :
    1 ≤ sciMantissa v.den v ∧ sciMantissa v.den v < 10 :=
  sciMantissa_bounds v.den v h0 (by linarith) (one_le_mul_pow_den v h0)

/-- C20 (evaluation at the failing input). The token `0.19999999` is accepted with the value
0.19999999, whose first non-zero significant digit is 1.  `frequencyTable` takes the digit from
the text written by `%e`, which is rounded to six digits after the point (`2.000000e-01`), and
increments the counter of the digit 2.  The branch for values of at least 1 takes the digit of
19.9999999 by division and increments the counter of the digit 1.  For 0.5 and 0.0025 the
counters of 5 and 2 are incremented. -/
theorem small_value_rounded_digit :
    getNumbers "0.19999999".toList
        = some (Outcome.dataset [LDouble.fin (19999999 / 100000000), LDouble.fin 0] [])
      ∧ firstSignificantDigit (19999999 / 100000000) = 1
      ∧ sciLeading (19999999 / 100000000) = 2
      ∧ frequencyTable [19999999 / 100000000, 0] 1 = some [0, 1, 0, 0, 0, 0, 0, 0, 0]
      ∧ frequencyTable [199999999 / 10000000, 0] 1 = some [1, 0, 0, 0, 0, 0, 0, 0, 0]
      ∧ frequencyTable [1 / 2, 1 / 400, 0] 2 = some [0, 1, 0, 0, 1, 0, 0, 0, 0] := by
  decide!

/-! ### The test for no mode (C12) -/

theorem headD_append_terminator (rest : List ℚ) (x : ℚ) (hx : x ≠ 0) :
    x = (rest ++ [0]).headD 0 ↔ rest.head? = some x := by
  cases rest with
  | nil => simp [hx]
  | cons y t =>
    simp only [List.cons_append, List.headD_cons, List.head?_cons, Option.some.injEq]
    exact eq_comm

theorem runsFrom_cons_eq (f : Nat) (x : ℚ) (rest : List ℚ) (h : rest.head? = some x) :
    runsFrom f (x :: rest) = runsFrom (f + 1) rest := by
  rw [runsFrom, if_pos h]

theorem runsFrom_cons_ne (f : Nat) (x : ℚ) (rest : List ℚ) (h : rest.head? ≠ some x) :
    runsFrom f (x :: rest) = (x, f + 1) :: runsFrom 0 rest := by
  rw [runsFrom, if_neg h]

theorem calModeStep_eq (x : ℚ) (m : ModeState) :
    calModeStep x x m = { m with modeF := m.modeF + 1 } := by
  simp [calModeStep]

theorem calModeStep_ne (x y : ℚ) (m : ModeState) (h : x ≠ y) :
    (calModeStep x y m).modeF = 0
      ∧ ((calModeStep x y m).modeFH, (calModeStep x y m).numModes)
        = runStep (m.modeFH, m.numModes) (m.modeF + 1) := by
  unfold calModeStep runStep
  rw [if_neg h]
  simp only [Nat.add_sub_cancel]
  split_ifs <;> exact ⟨rfl, rfl⟩

/-- The pair `(modeFH, numModes)` that `calMode` computes is the fold of `runStep` over the
lengths of the runs of the dataset. -/
theorem calModeLoop_scalars (ds : List ℚ) (hnz : ∀ x ∈ ds, x ≠ 0) (m : ModeState) :
    ((calModeLoop (ds ++ [0]) ds.length m).modeFH,
      (calModeLoop (ds ++ [0]) ds.length m).numModes)
      = ((runsFrom m.modeF ds).map Prod.snd).foldl runStep (m.modeFH, m.numModes) := by
  induction ds generalizing m with
  | nil => simp [calModeLoop, runsFrom]
  | cons x rest ih =>
    have hx : x ≠ 0 := hnz x (List.mem_cons_self _ _)
    have hrest : ∀ y ∈ rest, y ≠ 0 := fun y hy => hnz y (List.mem_cons_of_mem _ hy)
    have e : calModeLoop ((x :: rest) ++ [0]) (x :: rest).length m
        = calModeLoop (rest ++ [0]) rest.length (calModeStep x ((rest ++ [0]).headD 0) m) := rfl
    rw [e, ih hrest]
    by_cases heq : rest.head? = some x
    · rw [← (headD_append_terminator rest x hx).2 heq, calModeStep_eq,
        runsFrom_cons_eq _ _ _ heq]
    · have hne : x ≠ (rest ++ [0]).headD 0 :=
        fun h => heq ((headD_append_terminator rest x hx).1 h)
      obtain ⟨h1, h2⟩ := calModeStep_ne x _ m hne
      rw [h1, h2, runsFrom_cons_ne _ _ _ heq]
      rfl

/-- The fold of `runStep` keeps: every length seen is at most `modeFH + 1`; `numModes` is 0 as
long as `modeFH` is 0, and otherwise it is the number of runs seen of length `modeFH + 1`,
which is at least 1. -/
theorem runStep_fold (ls pre : List Nat) (H m : Nat) (hls : ∀ l ∈ ls, 1 ≤ l)
    (h1 : ∀ l ∈ pre, l ≤ H + 1) (h2 : H = 0 → m = 0)
    (h3 : H ≠ 0 → m = pre.count (H + 1) ∧ 1 ≤ m) :
    (∀ l ∈ pre ++ ls, l ≤ (ls.foldl runStep (H, m)).1 + 1)
      ∧ ((ls.foldl runStep (H, m)).1 = 0 → (ls.foldl runStep (H, m)).2 = 0)
      ∧ ((ls.foldl runStep (H, m)).1 ≠ 0 →
          (ls.foldl runStep (H, m)).2 = (pre ++ ls).count ((ls.foldl runStep (H, m)).1 + 1)
            ∧ 1 ≤ (ls.foldl runStep (H, m)).2) := by
  induction ls generalizing pre H m with
  | nil => simpa using ⟨h1, h2, h3⟩
  | cons l ls ih =>
    have hl : 1 ≤ l := hls l (List.mem_cons_self _ _)
    have hls1 : ∀ x ∈ ls, 1 ≤ x := fun x hx => hls x (List.mem_cons_of_mem _ hx)
    have happ : pre ++ l :: ls = (pre ++ [l]) ++ ls := by simp
    rw [List.foldl_cons, happ]
    by_cases hgt : l - 1 > H
    · have hstep : runStep (H, m) l = (l - 1, 1) := by
        simp [runStep, hgt]
      rw [hstep]
      apply ih (pre ++ [l]) (l - 1) 1 hls1
      · intro x hx
        rcases List.mem_append.1 hx with hx | hx
        · have := h1 x hx
          omega
        · simp only [List.mem_singleton] at hx
          omega
      · intro h0
        omega
      · intro _
        refine ⟨?_, le_refl 1⟩
        have hcount : pre.count (l - 1 + 1) = 0 := by
          apply List.count_eq_zero_of_not_mem
          intro hmem
          have := h1 _ hmem
          omega
        rw [List.count_append, hcount]
        have : l - 1 + 1 = l := by omega
        rw [this]
        simp
    · by_cases heq : l - 1 = H ∧ l - 1 ≠ 0
      · have hstep : runStep (H, m) l = (H, m + 1) := by
          simp only [runStep]
          rw [if_neg hgt, if_pos heq]
        rw [hstep]
        apply ih (pre ++ [l]) H (m + 1) hls1
        · intro x hx
          rcases List.mem_append.1 hx with hx | hx
          · exact h1 x hx
          · simp only [List.mem_singleton] at hx
            omega
        · intro h0
          omega
        · intro hH
          obtain ⟨hm, _⟩ := h3 hH
          refine ⟨?_, by omega⟩
          have : H + 1 = l := by omega
          rw [List.count_append, ← hm, this]
          simp
      · have hstep : runStep (H, m) l = (H, m) := by
          simp only [runStep]
          rw [if_neg hgt, if_neg heq]
        rw [hstep]
        apply ih (pre ++ [l]) H m hls1
        · intro x hx
          rcases List.mem_append.1 hx with hx | hx
          · exact h1 x hx
          · simp only [List.mem_singleton] at hx
            omega
        · exact h2
        · intro hH
          obtain ⟨hm, hm1⟩ := h3 hH
          refine ⟨?_, hm1⟩
          have hne : l ≠ H + 1 := by
            intro hl1
            apply heq
            omega
          rw [List.count_append, ← hm, List.count_singleton]
          simp [hne]

/-- A list of lengths between 1 and `M`: the lengths equal to `M` add up to the whole sum
exactly when every length is `M`. -/
theorem count_mul_eq_sum (ls : List Nat) (M : Nat) (h : ∀ l ∈ ls, 1 ≤ l ∧ l ≤ M) :
    ls.count M * M ≤ ls.sum ∧ (ls.count M * M = ls.sum ↔ ∀ l ∈ ls, l = M) := by
  induction ls with
  | nil => simp
  | cons l ls ih =>
    obtain ⟨hle, hiff⟩ := ih (fun x hx => h x (List.mem_cons_of_mem _ hx))
    obtain ⟨hl1, hlM⟩ := h l (List.mem_cons_self _ _)
    by_cases hl : l = M
    · subst hl
      simp only [List.count_cons_self, List.sum_cons, List.mem_cons, forall_eq_or_imp,
        true_and]
      constructor
      · nlinarith
      · rw [← hiff]
        constructor
        · intro h1
          nlinarith
        · intro h1
          nlinarith
    · have hc : (l :: ls).count M = ls.count M := by
        rw [List.count_cons_of_ne]
        exact fun h => hl h.symm
      rw [hc, List.sum_cons]
      constructor
      · omega
      · constructor
        · intro h1
          omega
        · intro h1
          exact absurd (h1 l (List.mem_cons_self _ _)) hl

theorem runsFrom_pos (f : Nat) (ds : List ℚ) : ∀ p ∈ runsFrom f ds, 1 ≤ p.2 := by
  induction ds generalizing f with
  | nil => simp [runsFrom]
  | cons x rest ih =>
    intro p hp
    by_cases heq : rest.head? = some x
    · rw [runsFrom_cons_eq _ _ _ heq] at hp
      exact ih _ p hp
    · rw [runsFrom_cons_ne _ _ _ heq] at hp
      rcases List.mem_cons.1 hp with rfl | hp
      · exact Nat.le_add_left 1 f
      · exact ih _ p hp

theorem runsFrom_sum (f : Nat) (ds : List ℚ) (hne : ds ≠ []) :
    ((runsFrom f ds).map Prod.snd).sum = ds.length + f := by
  induction ds generalizing f with
  | nil => exact absurd rfl hne
  | cons x rest ih =>
    by_cases heq : rest.head? = some x
    · have hrest : rest ≠ [] := by
        rintro rfl
        simp at heq
      rw [runsFrom_cons_eq _ _ _ heq, ih _ hrest, List.length_cons]
      omega
    · rw [runsFrom_cons_ne _ _ _ heq, List.map_cons, List.sum_cons, List.length_cons]
      cases rest with
      | nil =>
        simp [runsFrom]
        omega
      | cons y t =>
        rw [ih 0 (List.cons_ne_nil _ _), List.length_cons]
        omega

theorem not_mem_of_head_ne (x : ℚ) (rest : List ℚ) (hs : (x :: rest).Sorted (· ≤ ·))
    (hne : rest.head? ≠ some x) : x ∉ rest := by
  cases rest with
  | nil => simp
  | cons y t =>
    have hxy : x ≤ y := (List.sorted_cons.1 hs).1 y (List.mem_cons_self _ _)
    have hyx : y ≠ x := by
      intro h
      apply hne
      rw [h]
      rfl
    have hlt : x < y := lt_of_le_of_ne hxy (fun h => hyx h.symm)
    intro hmem
    rcases List.mem_cons.1 hmem with h | h
    · exact hyx h.symm
    · have := (List.sorted_cons.1 (List.sorted_cons.1 hs).2).1 x h
      exact absurd hlt (not_lt.2 this)

/-- In a sorted dataset the run of a value holds all its occurrences. -/
theorem runsFrom_count (f : Nat) (ds : List ℚ) (hs : ds.Sorted (· ≤ ·)) :
    (∀ p ∈ runsFrom f ds,
        p.1 ∈ ds ∧ p.2 = ds.count p.1 + (if ds.head? = some p.1 then f else 0))
      ∧ ∀ x ∈ ds, ∃ l, (x, l) ∈ runsFrom f ds := by
  induction ds generalizing f with
  | nil => simp [runsFrom]
  | cons x rest ih =>
    have hsr : rest.Sorted (· ≤ ·) := (List.sorted_cons.1 hs).2
    by_cases heq : rest.head? = some x
    · rw [runsFrom_cons_eq _ _ _ heq]
      obtain ⟨h1, h2⟩ := ih (f + 1) hsr
      constructor
      · intro p hp
        obtain ⟨hmem, hlen⟩ := h1 p hp
        refine ⟨List.mem_cons_of_mem _ hmem, ?_⟩
        rw [hlen, heq]
        by_cases hpx : x = p.1
        · subst hpx
          simp
          omega
        · have hpx2 : ¬ (some x = some p.1) := fun h => hpx (Option.some.inj h)
          rw [if_neg hpx2, List.head?_cons, if_neg hpx2, List.count_cons_of_ne]
          exact fun h => hpx h.symm
      · intro y hy
        rcases List.mem_cons.1 hy with rfl | hy
        · have hmem : y ∈ rest := by
            cases rest with
            | nil => simp at heq
            | cons z t =>
              simp only [List.head?_cons, Option.some.injEq] at heq
              rw [heq]
              exact List.mem_cons_self _ _
          exact h2 y hmem
        · exact h2 y hy
    · rw [runsFrom_cons_ne _ _ _ heq]
      have hx : x ∉ rest := not_mem_of_head_ne x rest hs heq
      obtain ⟨h1, h2⟩ := ih 0 hsr
      constructor
      · intro p hp
        rcases List.mem_cons.1 hp with rfl | hp
        · refine ⟨List.mem_cons_self _ _, ?_⟩
          simp [List.count_eq_zero_of_not_mem hx]
          omega
        · obtain ⟨hmem, hlen⟩ := h1 p hp
          have hpx : p.1 ≠ x := fun h => hx (h ▸ hmem)
          refine ⟨List.mem_cons_of_mem _ hmem, ?_⟩
          have hpx2 : ¬ (some x = some p.1) := fun h => hpx (Option.some.inj h).symm
          rw [hlen, List.head?_cons, if_neg hpx2, List.count_cons_of_ne hpx]
          simp
      · intro y hy
        rcases List.mem_cons.1 hy with rfl | hy
        · exact ⟨f + 1, List.mem_cons_self _ _⟩
        · obtain ⟨l, hl⟩ := h2 y hy
          exact ⟨l, List.mem_cons_of_mem _ hl⟩

/-- C12. For every sorted dataset of size `N ≥ 1` (non-zero values, followed by the terminator
in the array), the test of the report for "no mode", `numModes == 0` or
`numModes * (modeFH + 1) == arrSize` evaluated after `calMode`, holds exactly when every value
of the dataset occurs the same number of times. -/
theorem no_mode_iff_equal_counts (ds : List ℚ) (hne : ds ≠ []) (hs : ds.Sorted (· ≤ ·))
    (hnz : ∀ x ∈ ds, x ≠ 0) :
    noModeReported (calMode (ds ++ [0]) ds.length) ds.length = true
      ↔ ∀ x ∈ ds, ∀ y ∈ ds, ds.count x = ds.count y := by
  have hsc := calModeLoop_scalars ds hnz initMode
  have hpos := runsFrom_pos 0 ds
  have hsum := runsFrom_sum 0 ds hne
  obtain ⟨hcount, hrun⟩ := runsFrom_count 0 ds hs
  have hlens : ∀ l ∈ (runsFrom 0 ds).map Prod.snd, 1 ≤ l := by
    intro l hl
    obtain ⟨p, hp, rfl⟩ := List.mem_map.1 hl
    exact hpos p hp
  obtain ⟨i1, i2, i3⟩ := runStep_fold ((runsFrom 0 ds).map Prod.snd) [] 0 0 hlens
    (by simp) (fun _ => rfl) (fun h => absurd rfl h)
  simp only [List.nil_append] at i1 i3
  have hexists : ∃ l, l ∈ (runsFrom 0 ds).map Prod.snd := by
    cases ds with
    | nil => exact absurd rfl hne
    | cons x rest =>
      obtain ⟨l, hl⟩ := hrun x (List.mem_cons_self _ _)
      exact ⟨l, List.mem_map.2 ⟨(x, l), hl, rfl⟩⟩
  have hF : (calMode (ds ++ [0]) ds.length).modeFH
      = (((runsFrom 0 ds).map Prod.snd).foldl runStep (0, 0)).1 := congrArg Prod.fst hsc
  have hM : (calMode (ds ++ [0]) ds.length).numModes
      = (((runsFrom 0 ds).map Prod.snd).foldl runStep (0, 0)).2 := congrArg Prod.snd hsc
  have hlenEq : (∀ l ∈ (runsFrom 0 ds).map Prod.snd, ∀ l' ∈ (runsFrom 0 ds).map Prod.snd,
      l = l') ↔ ∀ x ∈ ds, ∀ y ∈ ds, ds.count x = ds.count y := by
    constructor
    · intro h x hx y hy
      obtain ⟨lx, hlx⟩ := hrun x hx
      obtain ⟨ly, hly⟩ := hrun y hy
      have ex := (hcount _ hlx).2
      have ey := (hcount _ hly).2
      simp only [Nat.add_zero, ite_self] at ex ey
      rw [← ex, ← ey]
      exact h lx (List.mem_map.2 ⟨_, hlx, rfl⟩) ly (List.mem_map.2 ⟨_, hly, rfl⟩)
    · intro h l hl l' hl'
      obtain ⟨p, hp, rfl⟩ := List.mem_map.1 hl
      obtain ⟨p', hp', rfl⟩ := List.mem_map.1 hl'
      have ex := hcount p hp
      have ey := hcount p' hp'
      simp only [Nat.add_zero, ite_self] at ex ey
      rw [ex.2, ey.2]
      exact h _ ex.1 _ ey.1
  rw [← hlenEq]
  unfold noModeReported
  rw [Nat.add_zero] at hsum
  rw [decide_eq_true_eq, hF, hM, ← hsum]
  clear hsum hF hM hsc hlenEq hexists hcount hrun hpos
  generalize (runsFrom 0 ds).map Prod.snd = ls at *
  generalize hr : ls.foldl runStep (0, 0) = r at *
  obtain ⟨H, m⟩ := r
  simp only at i1 i2 i3 ⊢
  have hbound : ∀ l ∈ ls, 1 ≤ l ∧ l ≤ H + 1 := fun l hl => ⟨hlens l hl, i1 l hl⟩
  obtain ⟨_, hiff⟩ := count_mul_eq_sum ls (H + 1) hbound
  constructor
  · intro h l hl l' hl'
    by_cases hH : H = 0
    · have a := hbound l hl
      have b := hbound l' hl'
      omega
    · obtain ⟨hm, hm1⟩ := i3 hH
      rcases h with h | h
      · omega
      · rw [hm] at h
        have hall := hiff.1 h
        rw [hall l hl, hall l' hl']
  · intro h
    by_cases hH : H = 0
    · exact Or.inl (i2 hH)
    · right
      obtain ⟨hm, hm1⟩ := i3 hH
      have hmem : H + 1 ∈ ls := by
        apply List.count_pos_iff.1
        omega
      rw [hm]
      exact hiff.2 (fun l hl => h l hl (H + 1) hmem)

/-- C12, witness: the dataset 1, 2, 3 is reported as "no mode". -/
theorem no_mode_iff_equal_counts_witness :
    noModeReported (calMode ([1, 2, 3] ++ [0]) ([1, 2, 3] : List ℚ).length)
      ([1, 2, 3] : List ℚ).length = true :=
  (no_mode_iff_equal_counts [1, 2, 3] (by decide) (by decide!) (by decide!)).2 (by decide!)

/-! ### Writes to the mode buffer (C21) -/

/-- The buffer contents stay determined through a pass exactly when they were determined and
the write of line 497, if the pass makes it, goes to an index below the capacity. -/
theorem calModeStep_modeNums (ai ai1 : ℚ) (m : ModeState) :
    (calModeStep ai ai1 m).modeNums = none
      ↔ m.modeNums = none ∨ ∃ w, multiModeWrite ai ai1 m = some w ∧ ¬ w.1 < (w.2 : Int) := by
  unfold calModeStep multiModeWrite
  by_cases h1 : ai = ai1
  · simp only [h1, if_true]
    simp
  · rw [if_neg h1, if_neg h1]
    by_cases h2 : m.modeF > m.modeFH
    · rw [if_pos h2, if_pos h2]
      cases m.modeNums <;> simp
    · rw [if_neg h2, if_neg h2]
      by_cases h3 : m.modeF = m.modeFH ∧ m.modeF ≠ 0
      · rw [if_pos h3, if_pos h3]
        simp only [Option.some.injEq, exists_eq_left']
        generalize (if m.a_index = (m.capacity : Int) then m.capacity * 2 else m.capacity)
          = cap
        by_cases h4 : m.a_index + 1 < (cap : Int)
        · rw [if_pos h4]
          cases m.modeNums <;> simp [h4]
        · rw [if_neg h4]
          simp [h4]
      · rw [if_neg h3, if_neg h3]
        simp

/-- The contents of the mode buffer are not determined after `calMode` exactly when they were
not before, or one of the writes of line 497 went to an index that is not below the capacity
of the buffer. -/
theorem calModeLoop_modeNums (a : List ℚ) (n : Nat) (m : ModeState) :
    (calModeLoop a n m).modeNums = none
      ↔ m.modeNums = none ∨ ∃ w ∈ modeWrites a n m, ¬ w.1 < (w.2 : Int) := by
  induction a generalizing n m with
  | nil => cases n <;> simp [calModeLoop, modeWrites]
  | cons ai rest ih =>
    cases n with
    | zero => simp [calModeLoop, modeWrites]
    | succ n =>
      simp only [calModeLoop, modeWrites]
      rw [ih, calModeStep_modeNums]
      constructor
      · rintro ((h | ⟨w, hw, hlt⟩) | ⟨w, hw, hlt⟩)
        · exact Or.inl h
        · exact Or.inr ⟨w, List.mem_append_left _ (Option.mem_toList.2 hw), hlt⟩
        · exact Or.inr ⟨w, List.mem_append_right _ hw, hlt⟩
      · rintro (h | ⟨w, hw, hlt⟩)
        · exact Or.inl (Or.inl h)
        · rcases List.mem_append.1 hw with hw | hw
          · left
            right
            exact ⟨w, Option.mem_toList.1 hw, hlt⟩
          · exact Or.inr ⟨w, hw, hlt⟩

/-- C21 (evaluation at the failing input). On the sorted dataset 1,1,2,2,3,3,4,4,5,5,6 the
writes `modeNums[++a_index]` go to the indices 1, 2, 3 and 4, all with capacity 4: the growth
check compares `a_index`, which is 3 before the fourth of these writes, with the capacity 4 and
does not grow the buffer, and the write goes to index 4, which is not below the capacity.  The
buffer grows only at the next tie, when `a_index` is 4. -/
theorem calMode_write_past_capacity :
    modeWrites [1, 1, 2, 2, 3, 3, 4, 4, 5, 5, 6, 0] 11 initMode
        = [(1, 4), (2, 4), (3, 4), (4, 4)]
      ∧ (calMode [1, 1, 2, 2, 3, 3, 4, 4, 5, 5, 6, 0] 11).modeNums = none
      ∧ modeWrites [1, 1, 2, 2, 3, 3, 4, 4, 5, 5, 6, 6, 0] 12 initMode
        = [(1, 4), (2, 4), (3, 4), (4, 4), (5, 8)]
      ∧ modeWrites [1, 1, 2, 2, 3, 3, 4, 4, 6, 0] 9 initMode = [(1, 4), (2, 4), (3, 4)] := by
  decide!

/-! ### The counters of the frequency table (C22) -/

theorem roundHalfEven_bounds (y : ℚ) : ⌊y⌋ ≤ roundHalfEven y ∧ roundHalfEven y ≤ ⌊y⌋ + 1 := by
  unfold roundHalfEven
  split_ifs <;> constructor <;> omega

/-- The digit read back from the text of `%e` is between 1 and 9 for a positive value below 1. -/
theorem sciLeading_range (v : ℚ) (h0 : 0 < v) (h1 : v < 1) :
    1 ≤ sciLeading v ∧ sciLeading v ≤ 9 := by
  obtain ⟨hlo, hhi⟩ := sciMantissa_range v h0 h1
  obtain ⟨rlo, rhi⟩ := roundHalfEven_bounds (sciMantissa v.den v * 1000000)
  have hfl1 : (1000000 : Int) ≤ ⌊sciMantissa v.den v * 1000000⌋ := by
    apply Int.le_floor.2
    push_cast
    linarith
  have hfl2 : ⌊sciMantissa v.den v * 1000000⌋ < 10000000 := by
    apply Int.floor_lt.2
    push_cast
    linarith
  unfold sciLeading
  simp only
  split_ifs with hm
  · exact ⟨le_refl 1, by norm_num⟩
  · constructor <;> omega

/-- Every positive value has a bucket, with an index from 0 to 8. -/
theorem bucketIndex_range (v : ℚ) (h0 : 0 < v) :
    ∃ k : Int, bucketIndex v = some k ∧ 0 ≤ k ∧ k < 9 := by
  by_cases h1 : v < 1
  · obtain ⟨hlo, hhi⟩ := sciLeading_range v h0 h1
    refine ⟨sciLeading v - 1, ?_, by omega, by omega⟩
    unfold bucketIndex
    rw [if_pos h1, if_pos h0]
  · obtain ⟨digit, k, hd1, hd9, -, -, hb⟩ := bucketIndex_leading v (not_lt.1 h1)
    exact ⟨(digit : Int) - 1, hb, by omega, by omega⟩

theorem sum_set_succ (fre : List Int) (k : Nat) (hk : k < fre.length) :
    (fre.set k (fre.getD k 0 + 1)).sum = fre.sum + 1 := by
  induction fre generalizing k with
  | nil => simp at hk
  | cons a t ih =>
    cases k with
    | zero =>
      simp only [List.set_cons_zero, List.sum_cons, List.getD_cons_zero]
      omega
    | succ k =>
      simp only [List.length_cons, Nat.succ_lt_succ_iff] at hk
      simp only [List.set_cons_succ, List.sum_cons, List.getD_cons_succ]
      rw [ih k hk]
      omega

theorem incrementBucket_spec (fre : List Int) (k : Int) (hlen : fre.length = 9) (h0 : 0 ≤ k)
    (h9 : k < 9) :
    ∃ fre1, incrementBucket fre k = some fre1 ∧ fre1.length = 9 ∧ fre1.sum = fre.sum + 1 := by
  refine ⟨fre.set k.toNat (fre.getD k.toNat 0 + 1), ?_, ?_, ?_⟩
  · unfold incrementBucket
    rw [if_pos ⟨h0, h9⟩]
  · rw [List.length_set, hlen]
  · apply sum_set_succ
    rw [hlen]
    omega

/-- The first loop of `frequencyTable` on positive values: no counter outside the table is
touched, and the sum of the nine counters grows by the number of values. -/
theorem rawFrequency_sum (ds rest : List ℚ) (fre : List Int) (hlen : fre.length = 9)
    (hpos : ∀ v ∈ ds, 0 < v) :
    ∃ fre1, rawFrequency (ds ++ rest) ds.length fre = some fre1 ∧ fre1.length = 9
      ∧ fre1.sum = fre.sum + ds.length := by
  induction ds generalizing fre with
  | nil =>
    refine ⟨fre, ?_, hlen, by simp⟩
    cases rest <;> rfl
  | cons v ds ih =>
    obtain ⟨k, hk, hk0, hk9⟩ := bucketIndex_range v (hpos v (List.mem_cons_self _ _))
    obtain ⟨fre1, hinc, hlen1, hsum1⟩ := incrementBucket_spec fre k hlen hk0 hk9
    obtain ⟨fre2, hraw, hlen2, hsum2⟩ := ih fre1 hlen1
      (fun x hx => hpos x (List.mem_cons_of_mem _ hx))
    refine ⟨fre2, ?_, hlen2, ?_⟩
    · simp only [List.cons_append, List.length_cons, rawFrequency, hk, hinc]
      exact hraw
    · rw [hsum2, hsum1, List.length_cons]
      push_cast
      ring

theorem actualFrequencies_sum (fre : List Int) (size : Nat) (hlen : fre.length = 9)
    (hsize : size ≠ 0) (hsum : fre.sum = size) : (actualFrequencies fre size).sum = 100 := by
  have hs : (size : ℚ) ≠ 0 := by exact_mod_cast hsize
  match fre, hlen with
  | [a0, a1, a2, a3, a4, a5, a6, a7, a8], _ =>
    have hq : ((a0 + (a1 + (a2 + (a3 + (a4 + (a5 + (a6 + (a7 + (a8 + 0)))))))) : Int) : ℚ)
        = (size : ℚ) := by
      have := hsum
      simp only [List.sum_cons, List.sum_nil] at this
      exact_mod_cast this
    have e : actualFrequencies [a0, a1, a2, a3, a4, a5, a6, a7, a8] size
        = [(a0 : ℚ) / size * 100, (a1 : ℚ) / size * 100, (a2 : ℚ) / size * 100,
           (a3 : ℚ) / size * 100, (a4 : ℚ) / size * 100, (a5 : ℚ) / size * 100,
           (a6 : ℚ) / size * 100, (a7 : ℚ) / size * 100, (a8 : ℚ) / size * 100] := rfl
    rw [e]
    simp only [List.sum_cons, List.sum_nil]
    push_cast at hq
    field_simp
    linear_combination 100 * hq

/-- C22. On a dataset `ds` of `N ≥ 1` values, each greater than 0 (the array may go on after
them, as with the cell behind the last number), `frequencyTable` started on the all-zero table
finishes; every value has exactly one bucket, with an index from 0 to 8; the table still has its
nine counters and they sum to `N`; and the nine actual frequencies `fre_array[d] / N * 100`
sum to 100. -/
theorem frequencyTable_counts_sum (ds rest : List ℚ) (hN : 1 ≤ ds.length)
    (hpos : ∀ v ∈ ds, 0 < v) :
    (∀ v ∈ ds, ∃ k : Int, bucketIndex v = some k ∧ 0 ≤ k ∧ k < 9)
      ∧ ∃ fre, frequencyTable (ds ++ rest) ds.length = some fre ∧ fre.length = 9
          ∧ fre.sum = (ds.length : Int)
          ∧ (actualFrequencies fre ds.length).sum = 100 := by
  refine ⟨fun v hv => bucketIndex_range v (hpos v hv), ?_⟩
  obtain ⟨fre, hraw, hlen, hsum⟩ := rawFrequency_sum ds rest initFrequency rfl hpos
  have hsum0 : fre.sum = (ds.length : Int) := by
    rw [hsum]
    have e : initFrequency.sum = 0 := by decide
    rw [e, zero_add]
  exact ⟨fre, hraw, hlen, hsum0, actualFrequencies_sum fre ds.length hlen (by omega) hsum0⟩

/-- C22, witness: the values 1/4, 3, 20 and 250, followed by the cell behind the last number. -/
theorem frequencyTable_counts_sum_witness :
    (∀ v ∈ ([1 / 4, 3, 20, 250] : List ℚ), ∃ k : Int, bucketIndex v = some k ∧ 0 ≤ k ∧ k < 9)
      ∧ ∃ fre, frequencyTable (([1 / 4, 3, 20, 250] : List ℚ) ++ [0])
              ([1 / 4, 3, 20, 250] : List ℚ).length = some fre
          ∧ fre.length = 9
          ∧ fre.sum = ((([1 / 4, 3, 20, 250] : List ℚ).length : Nat) : Int)
          ∧ (actualFrequencies fre ([1 / 4, 3, 20, 250] : List ℚ).length).sum = 100 :=
  frequencyTable_counts_sum [1 / 4, 3, 20, 250] [0] (by decide) (by
    intro v hv
    simp only [List.mem_cons, List.mem_singleton, List.not_mem_nil, or_false] at hv
    rcases hv with rfl | rfl | rfl | rfl <;> norm_num)

/-- The table of the values 1/4, 3, 20 and 250: three values in the bucket of the digit 2 (1/4
is printed as 2.500000e-01), one in that of the digit 3. -/
theorem frequencyTable_example :
    frequencyTable [1 / 4, 3, 20, 250, 0] 4 = some [0, 3, 1, 0, 0, 0, 0, 0, 0]
      ∧ actualFrequencies [0, 3, 1, 0, 0, 0, 0, 0, 0] 4 = [0, 75, 25, 0, 0, 0, 0, 0, 0] := by
  decide!

end NBStats
